import Mathlib

/-!
Verification development for the coverage-region aggregation scripts of this
repository.  The scripts under study are the near-duplicated aggregation
cores of:

* `rug_ae1/rulf/collect_cov.py`                        (namespace `Rulf`)
* `base_4/llm_4_base_cov/main.py`                      (namespace `Base4`)
* `rug_ae1/source/rug-gpt/cov_collect.py`              (namespace `CovCollect`)
* `rug_ae1/rustyunit/.../rusty-unit-18/t.py`           (namespace `Tpy`)

Each namespace shallowly embeds the boundary resolver (`parse_file`), the
per-export normalization/merge loop of `collect_result` / `cov_select`, and
the derived metrics.  Python dictionaries are modelled as insertion-ordered
association lists with unique keys, Python exceptions (assert failures,
list-index errors) as `Except String`, and the file system as an explicit
map from path to list of lines.
-/

/-- Python `needle in haystack` on character lists: `true` exactly when
`needle` occurs contiguously inside `haystack`. -/
def listContains : List Char → List Char → Bool
  | needle, [] => needle.isPrefixOf []
  | needle, c :: t => needle.isPrefixOf (c :: t) || listContains needle t

/-- Python's substring test `needle in haystack` on strings. -/
def pyIn (needle haystack : String) : Bool :=
  listContains needle.data haystack.data

/-- Decimal digit characters of `n`, most significant digit first; the first
argument is fuel bounding the recursion (callers pass fuel `≥ n`).  This is
the digit core of Python's `str` on a positive integer. -/
def pyStrCore : Nat → Nat → List Char
  | _, 0 => []
  | 0, _ + 1 => []
  | fuel + 1, n + 1 =>
    pyStrCore fuel ((n + 1) / 10) ++ [Nat.digitChar ((n + 1) % 10)]

/-- Python `str(n)` for a nonnegative integer `n`. -/
def pyStr (n : Nat) : String :=
  if n = 0 then "0" else ⟨pyStrCore n n⟩

/-- Lookup in the Python-dict model (insertion-ordered association list with
unique keys). -/
def dictGet? {β : Type} : List (String × β) → String → Option β
  | [], _ => none
  | (k', v) :: t, k => if k' = k then some v else dictGet? t k

/-- Python `m.get(k, d)`. -/
def dictGetD {β : Type} (m : List (String × β)) (k : String) (d : β) : β :=
  (dictGet? m k).getD d

/-- Python `k in m` for a dict. -/
def dictMem {β : Type} (m : List (String × β)) (k : String) : Bool :=
  (dictGet? m k).isSome

/-- Python `m[k] = v`: update in place when the key is present (keeping the
original key cell and its position), append a fresh entry otherwise. -/
def dictSet {β : Type} : List (String × β) → String → β → List (String × β)
  | [], k, v => [(k, v)]
  | (k', v') :: t, k, v =>
    if k' = k then (k', v) :: t else (k', v') :: dictSet t k v

/-- Python `xs[i]` on a list: raises `IndexError` when out of range. -/
def pyIndex {α : Type} (xs : List α) (i : Nat) : Except String α :=
  match xs.get? i with
  | some v => .ok v
  | none => .error "IndexError: list index out of range"

/-- One llvm-cov region record
`[LineStart, ColumnStart, LineEnd, ColumnEnd, ExecutionCount, ...]`;
the scripts read only these five leading fields (`regions[0] .. regions[4]`). -/
structure RawRegion where
  lst : Nat
  scol : Nat
  led : Nat
  ecol : Nat
  count : Nat
  deriving DecidableEq, Repr

/-- One function record of the llvm-cov JSON export
(`obj['data'][0]['functions'][i]`): a list of filenames and a region list. -/
structure FuncRecord where
  filenames : List String
  regions : List RawRegion
  deriving DecidableEq, Repr

/-- The composite region key written by every variant:
`filename + '/' + str(lst) + '/' + str(scol) + '/' + str(led) + '/' + str(ecol)`. -/
def regionKeyRaw (filename : String) (a b c d : Nat) : String :=
  filename ++ "/" ++ pyStr a ++ "/" ++ pyStr b ++ "/" ++ pyStr c ++ "/" ++ pyStr d

/-- Region key of a `RawRegion` (the coordinates used are
`regions[0], regions[1], regions[2], regions[3]`). -/
def regionKey (filename : String) (r : RawRegion) : String :=
  regionKeyRaw filename r.lst r.scol r.led r.ecol

/-- Shared shape of every `parse_file` boundary scan:
`ans = 1; for l in lines: if marker(l): break; ans += 1; return ans`. -/
def parseLoop (isM : String → Bool) : Nat → List String → Nat
  | ans, [] => ans
  | ans, l :: ls => if isM l then ans else parseLoop isM (ans + 1) ls

/-- Boundary-cache step shared by the variants:
`if filename not in map: map[filename] = parse_file(filename)` followed by
`limit = map[filename]`.  The lookup after the conditional insert always
succeeds, so the `0` default of the model is never the value actually used. -/
def cacheStep (pf : String → Nat) (map : List (String × Nat)) (fl : String) :
    List (String × Nat) × Nat :=
  let map' := if dictMem map fl then map else dictSet map fl (pf fl)
  (map', dictGetD map' fl 0)

namespace Rulf

/-- Test-section marker of `rulf/collect_cov.py`: `'#[cfg(test)]' in l`. -/
def isTestMarker (l : String) : Bool := pyIn "#[cfg(test)]" l

/-- `parse_file` of `rulf/collect_cov.py`. -/
def parse_file (lines : List String) : Nat := parseLoop isTestMarker 1 lines

end Rulf

namespace Base4

/-- Test-section marker of `llm_4_base_cov/main.py`:
`'mod tests' in l or '#[cfg(test)]' in l`. -/
def isTestMarker (l : String) : Bool :=
  pyIn "mod tests" l || pyIn "#[cfg(test)]" l

/-- `parse_file` of `llm_4_base_cov/main.py`. -/
def parse_file (lines : List String) : Nat := parseLoop isTestMarker 1 lines

end Base4

namespace CovCollect

/-- Test-section marker of `rug-gpt/cov_collect.py`:
`'fuzzdriver_' in l or '#[cfg(test)]' in l`. -/
def isTestMarker (l : String) : Bool :=
  pyIn "fuzzdriver_" l || pyIn "#[cfg(test)]" l

/-- `parse_file` of `rug-gpt/cov_collect.py`. -/
def parse_file (lines : List String) : Nat := parseLoop isTestMarker 1 lines

end CovCollect

namespace Base4

/-- Mutable state threaded through `collect_result` of `llm_4_base_cov/main.py`:
the per-file boundary cache `map` and the aggregate store `mamp_reg`
(key ↦ 0/1 covered flag, rehydrated from `cov_map.json`). -/
structure St where
  map : List (String × Nat)
  mamp_reg : List (String × Nat)
  deriving Repr

/-- Region loop of `collect_result`: on `led > limit` the loop breaks
(the `is_valid_func = False` flag it also sets is never read afterwards in
this variant); otherwise `mamp_reg[k] = 1` when `count > 0`, else
`mamp_reg[k] = mamp_reg.get(k, 0)`. -/
def regionLoop (limit : Nat) (filename : String) :
    List (String × Nat) → List RawRegion → List (String × Nat)
  | mamp, [] => mamp
  | mamp, r :: rs =>
    if r.led > limit then mamp
    else
      let k := regionKey filename r
      let mamp' :=
        if 0 < r.count then dictSet mamp k 1
        else dictSet mamp k (dictGetD mamp k 0)
      regionLoop limit filename mamp' rs

/-- Processing of one function record of the export by `collect_result`:
`assert len(func['filenames']) <= 1`, `filename = func['filenames'][0]`,
the `os.getcwd() in filename` root test, boundary-cache lookup, region loop. -/
def processFunc (root : String) (fs : String → List String) (st : St)
    (func : FuncRecord) : Except String St :=
  if func.filenames.length ≤ 1 then
    match pyIndex func.filenames 0 with
    | .error e => .error e
    | .ok filename =>
      if pyIn root filename then
        let ml := cacheStep (fun f => parse_file (fs f)) st.map filename
        .ok { map := ml.1,
              mamp_reg := regionLoop ml.2 filename st.mamp_reg func.regions }
      else .ok st
  else .error "AssertionError"

/-- The `for func in obj['data'][0]['functions']` loop. -/
def runFuncs (root : String) (fs : String → List String) :
    St → List FuncRecord → Except String St
  | st, [] => .ok st
  | st, f :: funcs =>
    match processFunc root fs st f with
    | .ok st' => runFuncs root fs st' funcs
    | .error e => .error e

/-- Aggregation core of `collect_result`: fresh boundary cache (`map = {}`),
store rehydrated from a prior `cov_map.json` snapshot (`mamp0`), all function
records processed in order; the result is the store dumped back to
`cov_map.json`. -/
def collect_result (root : String) (fs : String → List String)
    (mamp0 : List (String × Nat)) (funcs : List FuncRecord) :
    Except String (List (String × Nat)) :=
  match runFuncs root fs { map := [], mamp_reg := mamp0 } funcs with
  | .ok st => .ok st.mamp_reg
  | .error e => .error e

/-- `reg_total = len(mamp_reg)`. -/
def reg_total (m : List (String × Nat)) : Nat := m.length

/-- `for k,v in mamp_reg.items(): if v != 0: reg_count += 1`. -/
def reg_count (m : List (String × Nat)) : Nat :=
  (m.filter (fun kv => kv.2 ≠ 0)).length

/-- One normalized `(key, hitCount)` update as applied to the store by the
region loop (specification-side restatement used for the flattening lemmas). -/
def applyUp (m : List (String × Nat)) (u : String × Nat) : List (String × Nat) :=
  if 0 < u.2 then dictSet m u.1 1 else dictSet m u.1 (dictGetD m u.1 0)

/-- Folding a stream of normalized updates into the store. -/
def foldUps (m : List (String × Nat)) (ups : List (String × Nat)) :
    List (String × Nat) :=
  ups.foldl applyUp m

/-- The update stream contributed by one function record: nothing for a
record whose file fails the root test, otherwise one `(key, count)` pair per
region of the longest prefix that stays within the file's boundary. -/
def funcUps (root : String) (fs : String → List String) (f : FuncRecord) :
    List (String × Nat) :=
  match f.filenames.head? with
  | none => []
  | some fl =>
    if pyIn root fl then
      (f.regions.takeWhile (fun r => decide (r.led ≤ parse_file (fs fl)))).map
        (fun r => (regionKey fl r, r.count))
    else []

/-- The whole export's normalized update stream. -/
def updates (root : String) (fs : String → List String)
    (funcs : List FuncRecord) : List (String × Nat) :=
  (funcs.map (funcUps root fs)).flatten

/-- Some update of the stream carries key `k` with a positive hit count. -/
def hasPos (ups : List (String × Nat)) (k : String) : Bool :=
  ups.any (fun u => u.1 = k && decide (0 < u.2))

/-- Some update of the stream carries key `k`. -/
def hasKey (ups : List (String × Nat)) (k : String) : Bool :=
  ups.any (fun u => u.1 = k)

end Base4

namespace Rulf

/-- State threaded through `cov_select` of `rulf/collect_cov.py`: boundary
cache `map` and the count-mode store `mamp_reg`
(key ↦ `[led - lst + 1, accumulated count]`). -/
structure St where
  map : List (String × Nat)
  mamp_reg : List (String × Int × Nat)
  deriving Repr

/-- Region loop of `cov_select`: a region past the boundary is skipped with
`continue`; otherwise `mamp_reg[k][1] += count` when the key exists, else
`mamp_reg[k] = [led - lst + 1, count]`. -/
def regionLoop (limit : Nat) (filename : String) :
    List (String × Int × Nat) → List RawRegion → List (String × Int × Nat)
  | mamp, [] => mamp
  | mamp, r :: rs =>
    if r.led > limit then regionLoop limit filename mamp rs
    else
      let k := regionKey filename r
      let mamp' :=
        match dictGet? mamp k with
        | some v => dictSet mamp k (v.1, v.2 + r.count)
        | none => dictSet mamp k ((r.led : Int) - (r.lst : Int) + 1, r.count)
      regionLoop limit filename mamp' rs

/-- Processing of one function record by `cov_select`: the assert, the
`[0]` filename access, the `os.getcwd() in filename and 'src/' in filename`
root test, boundary cache, region loop. -/
def processFunc (root : String) (fs : String → List String) (st : St)
    (func : FuncRecord) : Except String St :=
  if func.filenames.length ≤ 1 then
    match pyIndex func.filenames 0 with
    | .error e => .error e
    | .ok filename =>
      if pyIn root filename && pyIn "src/" filename then
        let ml := cacheStep (fun f => parse_file (fs f)) st.map filename
        .ok { map := ml.1,
              mamp_reg := regionLoop ml.2 filename st.mamp_reg func.regions }
      else .ok st
  else .error "AssertionError"

/-- The function-record loop of one export inside `cov_select`
(the cache and store persist across the per-target exports of one call). -/
def runFuncs (root : String) (fs : String → List String) :
    St → List FuncRecord → Except String St
  | st, [] => .ok st
  | st, f :: funcs =>
    match processFunc root fs st f with
    | .ok st' => runFuncs root fs st' funcs
    | .error e => .error e

/-- `reg_total = len(mamp_reg)`. -/
def reg_total (m : List (String × Int × Nat)) : Nat := m.length

/-- keys whose accumulated count `v[1]` is positive. -/
def reg_count (m : List (String × Int × Nat)) : Nat :=
  (m.filter (fun kv => decide (0 < kv.2.2))).length

/-- `line_total += v[0]` over all entries. -/
def line_total (m : List (String × Int × Nat)) : Int :=
  (m.map (fun kv => kv.2.1)).sum

/-- `line_count += v[0]` over entries with `v[1] > 0`. -/
def line_count (m : List (String × Int × Nat)) : Int :=
  ((m.filter (fun kv => decide (0 < kv.2.2))).map (fun kv => kv.2.1)).sum

/-- One normalized count-mode update (spec-side restatement for proofs). -/
structure Up where
  key : String
  span : Int
  count : Nat
  deriving DecidableEq, Repr

/-- The store mutation performed for one kept region. -/
def applyUp (m : List (String × Int × Nat)) (u : Up) :
    List (String × Int × Nat) :=
  match dictGet? m u.key with
  | some v => dictSet m u.key (v.1, v.2 + u.count)
  | none => dictSet m u.key (u.span, u.count)

/-- Folding a stream of count-mode updates into the store. -/
def foldUps (m : List (String × Int × Nat)) (ups : List Up) :
    List (String × Int × Nat) :=
  ups.foldl applyUp m

/-- Update stream of one function record: one update per region within the
boundary of a file passing the root test (offending regions are skipped). -/
def funcUps (root : String) (fs : String → List String) (f : FuncRecord) :
    List Up :=
  match f.filenames.head? with
  | none => []
  | some fl =>
    if pyIn root fl && pyIn "src/" fl then
      (f.regions.filter (fun r => decide (r.led ≤ parse_file (fs fl)))).map
        (fun r => ⟨regionKey fl r, (r.led : Int) - (r.lst : Int) + 1, r.count⟩)
    else []

/-- The whole export's update stream. -/
def updates (root : String) (fs : String → List String)
    (funcs : List FuncRecord) : List Up :=
  (funcs.map (funcUps root fs)).flatten

/-- Total hit count the stream contributes to key `k`. -/
def sumCounts (ups : List Up) (k : String) : Nat :=
  ((ups.filter (fun u => u.key = k)).map (fun u => u.count)).sum

/-- Span recorded by the first update carrying key `k`. -/
def firstSpan (ups : List Up) (k : String) : Option Int :=
  (ups.find? (fun u => u.key = k)).map (fun u => u.span)

end Rulf

namespace CovCollect

/-- Per-function accumulator of the region loop of `collect_result` in
`rug-gpt/cov_collect.py`: the store, the four region/line counters and the
two per-function flags. -/
structure RegAcc where
  mamp_reg : List (String × Nat)
  reg_total : Nat
  reg_count : Nat
  line_total : Int
  line_count : Int
  has_hit : Bool
  is_valid : Bool
  deriving Repr

/-- Region loop of `collect_result`: on `led > limit` set
`is_valid_func = False` and break; a key already present is skipped with
`continue`; a fresh key is stored as `mamp_reg[k] = 1` and the counters are
bumped, `reg_count`/`line_count`/`has_hit` only when `count > 0`. -/
def regionLoop (limit : Nat) (filename : String) : RegAcc → List RawRegion → RegAcc
  | acc, [] => acc
  | acc, r :: rs =>
    if r.led > limit then { acc with is_valid := false }
    else
      let k := regionKey filename r
      if dictMem acc.mamp_reg k then regionLoop limit filename acc rs
      else
        let span : Int := (r.led : Int) - (r.lst : Int) + 1
        let acc' : RegAcc :=
          if 0 < r.count then
            { acc with mamp_reg := dictSet acc.mamp_reg k 1,
                       reg_total := acc.reg_total + 1,
                       reg_count := acc.reg_count + 1,
                       line_total := acc.line_total + span,
                       line_count := acc.line_count + span,
                       has_hit := true }
          else
            { acc with mamp_reg := dictSet acc.mamp_reg k 1,
                       reg_total := acc.reg_total + 1,
                       line_total := acc.line_total + span }
        regionLoop limit filename acc' rs

/-- Whole-pass state of `collect_result` of `rug-gpt/cov_collect.py`. -/
structure St where
  map : List (String × Nat)
  mamp_reg : List (String × Nat)
  reg_total : Nat
  reg_count : Nat
  line_total : Int
  line_count : Int
  func_total : Nat
  func_count : Nat
  deriving Repr

/-- Processing of one function record: assert, `[0]` access, root test,
boundary cache, region loop, then `if is_valid_func: func_total += 1_;
if has_hit: func_count += 1`. -/
def processFunc (root : String) (fs : String → List String) (st : St)
    (func : FuncRecord) : Except String St :=
  if func.filenames.length ≤ 1 then
    match pyIndex func.filenames 0 with
    | .error e => .error e
    | .ok filename =>
      if pyIn root filename then
        let ml := cacheStep (fun f => parse_file (fs f)) st.map filename
        let acc := regionLoop ml.2 filename
          { mamp_reg := st.mamp_reg, reg_total := st.reg_total,
            reg_count := st.reg_count, line_total := st.line_total,
            line_count := st.line_count, has_hit := false, is_valid := true }
          func.regions
        .ok { map := ml.1, mamp_reg := acc.mamp_reg,
              reg_total := acc.reg_total, reg_count := acc.reg_count,
              line_total := acc.line_total, line_count := acc.line_count,
              func_total := if acc.is_valid then st.func_total + 1 else st.func_total,
              func_count := if acc.is_valid && acc.has_hit then st.func_count + 1
                            else st.func_count }
      else .ok st
  else .error "AssertionError"

/-- The function-record loop. -/
def runFuncs (root : String) (fs : String → List String) :
    St → List FuncRecord → Except String St
  | st, [] => .ok st
  | st, f :: funcs =>
    match processFunc root fs st f with
    | .ok st' => runFuncs root fs st' funcs
    | .error e => .error e

/-- Aggregation core of `collect_result`: everything starts empty/zero
(this variant keeps no cross-invocation snapshot). -/
def collect_result (root : String) (fs : String → List String)
    (funcs : List FuncRecord) : Except String St :=
  runFuncs root fs
    { map := [], mamp_reg := [], reg_total := 0, reg_count := 0,
      line_total := 0, line_count := 0, func_total := 0, func_count := 0 }
    funcs

end CovCollect

namespace Tpy

/-- `parse_file` of `t.py`: a marker line stops the scan only when the NEXT
line starts with `mod`; reading the next line of a marker on the last line
(`ls[i+1]`) raises `IndexError`.  Marker lines that do not qualify still
increment the counter. -/
def parseLoop : Nat → List String → Except String Nat
  | ans, [] => .ok ans
  | ans, l :: rest =>
    if pyIn "fuzzdriver_" l || pyIn "#[cfg(test)]" l then
      match rest with
      | [] => .error "IndexError: list index out of range"
      | nxt :: _ =>
        if nxt.startsWith "mod" then .ok ans else parseLoop (ans + 1) rest
    else parseLoop (ans + 1) rest

/-- `parse_file` of `t.py`. -/
def parse_file (lines : List String) : Except String Nat := parseLoop 1 lines

/-- Region loop of `collect_result` in `t.py`: break past the boundary;
otherwise `if k not in mamp_reg: mamp_reg[k] = 0` followed by
`mamp_reg[k] = max(count, mamp_reg[k])`. -/
def regionLoop (limit : Nat) (filename : String) :
    List (String × Nat) → List RawRegion → List (String × Nat)
  | mamp, [] => mamp
  | mamp, r :: rs =>
    if r.led > limit then mamp
    else
      let k := regionKey filename r
      let m1 := if dictMem mamp k then mamp else dictSet mamp k 0
      let m2 := dictSet m1 k (max r.count (dictGetD m1 k 0))
      regionLoop limit filename m2 rs

/-- State of `collect_result` of `t.py`. -/
structure St where
  map : List (String × Nat)
  mamp_reg : List (String × Nat)
  deriving Repr

/-- Processing of one function record by `collect_result` of `t.py`:
assert, `[0]` access, the root test
`os.getcwd() in filename and not filename.endswith('rusty_monitor.rs')`,
boundary cache (whose `parse_file` call itself can raise), region loop. -/
def processFunc (root : String) (fs : String → List String) (st : St)
    (func : FuncRecord) : Except String St :=
  if func.filenames.length ≤ 1 then
    match pyIndex func.filenames 0 with
    | .error e => .error e
    | .ok filename =>
      if pyIn root filename && !(filename.endsWith "rusty_monitor.rs") then
        match (if dictMem st.map filename then Except.ok st.map
               else (parse_file (fs filename)).map
                 (fun b => dictSet st.map filename b)) with
        | .error e => .error e
        | .ok map' =>
          let limit := dictGetD map' filename 0
          .ok { map := map',
                mamp_reg := regionLoop limit filename st.mamp_reg func.regions }
      else .ok st
  else .error "AssertionError"

/-- The function-record loop. -/
def runFuncs (root : String) (fs : String → List String) :
    St → List FuncRecord → Except String St
  | st, [] => .ok st
  | st, f :: funcs =>
    match processFunc root fs st f with
    | .ok st' => runFuncs root fs st' funcs
    | .error e => .error e

/-- `reg_total = len(mamp_reg)`. -/
def reg_total (m : List (String × Nat)) : Nat := m.length

/-- keys with `v > 0`. -/
def reg_count (m : List (String × Nat)) : Nat :=
  (m.filter (fun kv => decide (0 < kv.2))).length

end Tpy

/-- File-system operation alphabet used to model the persist step. -/
inductive FsOp where
  | truncate : String → FsOp
  | write : String → String → FsOp
  | rename : String → String → FsOp
  deriving DecidableEq, Repr

/-- Effect of one operation on a file system (path ↦ optional content):
`truncate` empties the target (Python `open(path, 'w')`), `write` appends
serialized data to it (`json.dump`), `rename` moves content atomically. -/
def applyOp (fs : String → Option String) : FsOp → String → Option String
  | .truncate p, q => if q = p then some "" else fs q
  | .write p d, q => if q = p then some (((fs p).getD "") ++ d) else fs q
  | .rename src dst, q =>
    if q = dst then fs src else if q = src then none else fs q

/-- Effect of a sequence of operations. -/
def applyOps (fs : String → Option String) (ops : List FsOp) :
    String → Option String :=
  ops.foldl applyOp fs

/-- Persist step of `collect_result` (`llm_4_base_cov/main.py` and `t.py`):
`with open('cov_map.json', 'w') as fp: json.dump(mamp_reg, fp)` — the target
itself is truncated by the `'w'` open and then written in place; there is no
temporary path and no rename. -/
def persistOps (path data : String) : List FsOp :=
  [FsOp.truncate path, FsOp.write path data]

/-- Number of store entries whose value satisfies `p` (generic form of the
`reg_count` tallies). -/
def countVal {β : Type} (p : β → Bool) (m : List (String × β)) : Nat :=
  (m.filter (fun kv => p kv.2)).length

/-- Sum of `f` over all store values (generic form of `line_total`). -/
def sumVal {β : Type} (f : β → Int) (m : List (String × β)) : Int :=
  (m.map (fun kv => f kv.2)).sum

/-- Sum of `f` over the store values satisfying `p` (generic form of
`line_count`). -/
def sumValP {β : Type} (p : β → Bool) (f : β → Int)
    (m : List (String × β)) : Int :=
  ((m.filter (fun kv => p kv.2)).map (fun kv => f kv.2)).sum

/-- Decimal value of a digit string; left inverse of `pyStr` on canonical
digit strings, used to prove the region key injective. -/
def strToNat (cs : List Char) : Nat :=
  cs.foldl (fun acc c => acc * 10 + (c.toNat - 48)) 0

/-! ## Concrete fixtures used by witnesses and counterexamples -/

/-- Example project root (`os.getcwd()`). -/
def exRoot : String := "/w"

/-- Example production source file under the root. -/
def exFile : String := "/w/src/lib.rs"

/-- Example file outside the project root whose path nevertheless CONTAINS
the root `/w` as a substring (but not as a path-prefix). -/
def exFileDep : String := "/deps/w/src/lib.rs"

/-- Example file system: both example files hold two marker-free lines, so
every variant's boundary for them is 3. -/
def exFs : String → List String :=
  fun f => if f = exFile then ["fn a();", "fn b();"]
           else if f = exFileDep then ["fn d();", "fn e();"] else []

/-- Region within the boundary, hit count 0. -/
def exRegA : RawRegion := { lst := 1, scol := 1, led := 2, ecol := 2, count := 0 }

/-- Same region coordinates as `exRegA`, hit count 5. -/
def exRegB : RawRegion := { lst := 1, scol := 1, led := 2, ecol := 2, count := 5 }

/-- Region within the boundary, hit count 3. -/
def exRegC : RawRegion := { lst := 1, scol := 1, led := 2, ecol := 2, count := 3 }

/-- Region whose end line 9 exceeds the example boundary 3. -/
def exRegOut : RawRegion :=
  { lst := 8, scol := 1, led := 9, ecol := 2, count := 7 }

/-- Function record reporting the in-boundary region with count 0. -/
def exFuncA : FuncRecord := { filenames := [exFile], regions := [exRegA] }

/-- Function record reporting the same region with count 5. -/
def exFuncB : FuncRecord := { filenames := [exFile], regions := [exRegB] }

/-- Function record reporting the count-3 region. -/
def exFuncC : FuncRecord := { filenames := [exFile], regions := [exRegC] }

/-- Function record whose second region exceeds the boundary. -/
def exFuncMixed : FuncRecord :=
  { filenames := [exFile], regions := [exRegC, exRegOut] }

/-- Function record with an out-of-boundary region followed by a kept one. -/
def exFuncMixedRev : FuncRecord :=
  { filenames := [exFile], regions := [exRegOut, exRegC] }

/-- Function record for the dependency file (outside the root as a prefix,
inside it as a substring). -/
def exFuncDep : FuncRecord := { filenames := [exFileDep], regions := [exRegC] }

/-! ## Lemmas about the Python-dict model -/

theorem dictGet?_dictSet_self {β : Type} (m : List (String × β)) (k : String)
    (v : β) : dictGet? (dictSet m k v) k = some v := by
  induction m with
  | nil => simp [dictSet, dictGet?]
  | cons q t ih =>
    obtain ⟨k0, v0⟩ := q
    by_cases h0 : k0 = k
    · simp [dictSet, dictGet?, h0]
    · simp [dictSet, dictGet?, h0, ih]

theorem dictGet?_dictSet_ne {β : Type} (m : List (String × β)) (k k' : String)
    (v : β) (h : k' ≠ k) : dictGet? (dictSet m k v) k' = dictGet? m k' := by
  induction m with
  | nil => simp [dictSet, dictGet?, Ne.symm h]
  | cons q t ih =>
    obtain ⟨k0, v0⟩ := q
    by_cases h0 : k0 = k
    · subst h0
      simp [dictSet, dictGet?, Ne.symm h]
    · by_cases h1 : k0 = k'
      · simp [dictSet, dictGet?, h0, h1, h]
      · simp [dictSet, dictGet?, h0, h1, ih]

theorem dictSet_eq_self {β : Type} {m : List (String × β)} {k : String}
    {v : β} (h : dictGet? m k = some v) : dictSet m k v = m := by
  induction m with
  | nil => simp [dictGet?] at h
  | cons q t ih =>
    obtain ⟨k0, v0⟩ := q
    by_cases h0 : k0 = k
    · simp only [dictGet?, if_pos h0, Option.some.injEq] at h
      simp [dictSet, h0, h]
    · simp only [dictGet?, if_neg h0] at h
      simp [dictSet, h0, ih h]

theorem dictGet?_mem {β : Type} {m : List (String × β)} {k : String} {v : β}
    (h : dictGet? m k = some v) : (k, v) ∈ m := by
  induction m with
  | nil => simp [dictGet?] at h
  | cons q t ih =>
    obtain ⟨k0, v0⟩ := q
    by_cases h0 : k0 = k
    · simp only [dictGet?, if_pos h0, Option.some.injEq] at h
      subst h0; subst h
      simp
    · simp only [dictGet?, if_neg h0] at h
      simp [ih h]

theorem mem_dictSet {β : Type} {m : List (String × β)} {k : String} {v : β}
    {q : String × β} (h : q ∈ dictSet m k v) : q ∈ m ∨ q = (k, v) := by
  induction m with
  | nil =>
    simp [dictSet] at h
    simp [h]
  | cons q0 t ih =>
    obtain ⟨k0, v0⟩ := q0
    by_cases h0 : k0 = k
    · subst h0
      simp [dictSet] at h
      rcases h with h | h
      · right; simp [h]
      · left; simp [h]
    · simp [dictSet, h0] at h
      rcases h with h | h
      · left; simp [h]
      · rcases ih h with h1 | h1
        · left; simp [h1]
        · right; exact h1

theorem length_dictSet {β : Type} (m : List (String × β)) (k : String) (v : β) :
    (dictSet m k v).length =
      if dictMem m k then m.length else m.length + 1 := by
  induction m with
  | nil => simp [dictSet, dictMem, dictGet?]
  | cons q t ih =>
    obtain ⟨k0, v0⟩ := q
    by_cases h0 : k0 = k
    · simp [dictSet, dictMem, dictGet?, h0]
    · simp only [dictSet, if_neg h0, List.length_cons, dictMem, dictGet?, ih]
      by_cases hm : (dictGet? t k).isSome
      · simp [dictMem, hm, h0]
      · simp [dictMem, hm, h0]

theorem length_le_dictSet {β : Type} (m : List (String × β)) (k : String)
    (v : β) : m.length ≤ (dictSet m k v).length := by
  rw [length_dictSet]
  split <;> omega

theorem length_dictSet_of_mem {β : Type} {m : List (String × β)} {k : String}
    (v : β) (h : dictMem m k = true) : (dictSet m k v).length = m.length := by
  rw [length_dictSet, if_pos h]

theorem dictMem_iff {β : Type} {m : List (String × β)} {k : String} :
    dictMem m k = true ↔ ∃ v, dictGet? m k = some v := by
  simp [dictMem, Option.isSome_iff_exists]

theorem dictMem_dictSet_self {β : Type} (m : List (String × β)) (k : String)
    (v : β) : dictMem (dictSet m k v) k = true := by
  simp [dictMem, dictGet?_dictSet_self]

theorem countVal_dictSet_ge {β : Type} (p : β → Bool)
    (m : List (String × β)) (k : String) (v : β)
    (h : ∀ v0, dictGet? m k = some v0 → p v0 = true → p v = true) :
    countVal p m ≤ countVal p (dictSet m k v) := by
  induction m with
  | nil => simp [countVal, dictSet]
  | cons q t ih =>
    obtain ⟨k0, v0⟩ := q
    by_cases h0 : k0 = k
    · subst h0
      have hp : p v0 = true → p v = true := h v0 (by simp [dictGet?])
      cases hv0 : p v0 with
      | true => simp [dictSet, countVal, List.filter_cons, hv0, hp hv0]
      | false =>
        cases hv : p v <;>
          simp [dictSet, countVal, List.filter_cons, hv0, hv] <;> omega
    · have ih' := ih (fun v0 hg => h v0 (by simp [dictGet?, h0, hg]))
      simp only [countVal] at ih' ⊢
      simp only [dictSet, if_neg h0, List.filter_cons]
      cases hv0 : p v0 <;> simp <;> omega

theorem countVal_dictSet_eq {β : Type} (p : β → Bool)
    {m : List (String × β)} {k : String} {v v0 : β}
    (hg : dictGet? m k = some v0) (hp : p v = p v0) :
    countVal p (dictSet m k v) = countVal p m := by
  induction m with
  | nil => simp [dictGet?] at hg
  | cons q t ih =>
    obtain ⟨k0, w⟩ := q
    by_cases h0 : k0 = k
    · simp only [dictGet?, if_pos h0, Option.some.injEq] at hg
      subst hg
      simp only [dictSet, if_pos h0, countVal, List.filter_cons]
      rw [hp]
      cases hw : p w <;> simp
    · simp only [dictGet?, if_neg h0] at hg
      have := ih hg
      simp only [countVal] at this ⊢
      simp only [dictSet, if_neg h0, List.filter_cons]
      cases hw : p w <;> simp [this]

theorem sumVal_dictSet_eq {β : Type} (f : β → Int)
    {m : List (String × β)} {k : String} {v v0 : β}
    (hg : dictGet? m k = some v0) (hf : f v = f v0) :
    sumVal f (dictSet m k v) = sumVal f m := by
  induction m with
  | nil => simp [dictGet?] at hg
  | cons q t ih =>
    obtain ⟨k0, w⟩ := q
    by_cases h0 : k0 = k
    · simp only [dictGet?, if_pos h0, Option.some.injEq] at hg
      subst hg
      simp [dictSet, h0, sumVal, hf]
    · simp only [dictGet?, if_neg h0] at hg
      have := ih hg
      simp only [sumVal] at this
      simp [dictSet, h0, sumVal, this]

theorem sumValP_dictSet_eq {β : Type} (p : β → Bool) (f : β → Int)
    {m : List (String × β)} {k : String} {v v0 : β}
    (hg : dictGet? m k = some v0) (hp : p v = p v0) (hf : f v = f v0) :
    sumValP p f (dictSet m k v) = sumValP p f m := by
  induction m with
  | nil => simp [dictGet?] at hg
  | cons q t ih =>
    obtain ⟨k0, w⟩ := q
    by_cases h0 : k0 = k
    · simp only [dictGet?, if_pos h0, Option.some.injEq] at hg
      subst hg
      simp only [dictSet, if_pos h0, sumValP, List.filter_cons]
      rw [hp]
      cases hw : p w <;> simp [hf]
    · simp only [dictGet?, if_neg h0] at hg
      have := ih hg
      simp only [sumValP] at this ⊢
      simp only [dictSet, if_neg h0, List.filter_cons]
      cases hw : p w <;> simp [this]

/-! ## Boundary resolver (`parse_file`) -/

theorem parseLoop_no_marker (isM : String → Bool) (lines : List String)
    (a : Nat) (h : ∀ l ∈ lines, isM l = false) :
    parseLoop isM a lines = a + lines.length := by
  induction lines generalizing a with
  | nil => simp [parseLoop]
  | cons l ls ih =>
    have hl := h l (by simp)
    simp only [parseLoop, hl, Bool.false_eq_true, if_false, List.length_cons]
    rw [ih (a + 1) (fun x hx => h x (List.mem_cons_of_mem _ hx))]
    omega

theorem parseLoop_marker (isM : String → Bool) (lines : List String)
    (a i : Nat) (l : String) (hget : lines.get? i = some l)
    (hm : isM l = true)
    (hbefore : ∀ j l', j < i → lines.get? j = some l' → isM l' = false) :
    parseLoop isM a lines = a + i := by
  induction lines generalizing a i with
  | nil => simp at hget
  | cons x xs ih =>
    cases i with
    | zero =>
      simp only [List.get?_cons_zero, Option.some.injEq] at hget
      subst hget
      simp [parseLoop, hm]
    | succ i' =>
      have hx : isM x = false := hbefore 0 x (Nat.succ_pos i') (by simp)
      simp only [parseLoop, hx, Bool.false_eq_true, if_false]
      have := ih (a + 1) i' (by simpa using hget)
        (fun j l' hj hg => hbefore (j + 1) l' (by omega) (by simpa using hg))
      omega

/-- C1 (corrected).  The claim states that for a file whose first
test-section marker sits on line `M` (1-based) the boundary is `M - 1`, and
`N` for a marker-free file of `N` lines.  The code starts its counter at 1
and increments it once per scanned line, so `parse_file` actually returns
`M` (the marker's own line number) in the first case and `N + 1` in the
second.  Stated for both cited variants (`rulf/collect_cov.py` and
`llm_4_base_cov/main.py`): if the first marker is at 0-based index `i`
(1-based line `M = i + 1`), the result is `i + 1`; with no marker it is
`length + 1`. -/
theorem claim_C1 (lines : List String) :
    (∀ i l, lines.get? i = some l → Rulf.isTestMarker l = true →
        (∀ j l', j < i → lines.get? j = some l' →
          Rulf.isTestMarker l' = false) →
        Rulf.parse_file lines = i + 1) ∧
    ((∀ l ∈ lines, Rulf.isTestMarker l = false) →
        Rulf.parse_file lines = lines.length + 1) ∧
    (∀ i l, lines.get? i = some l → Base4.isTestMarker l = true →
        (∀ j l', j < i → lines.get? j = some l' →
          Base4.isTestMarker l' = false) →
        Base4.parse_file lines = i + 1) ∧
    ((∀ l ∈ lines, Base4.isTestMarker l = false) →
        Base4.parse_file lines = lines.length + 1) := by
  refine ⟨?_, ?_, ?_, ?_⟩
  · intro i l hget hm hb
    simp only [Rulf.parse_file]
    rw [parseLoop_marker _ _ _ i l hget hm hb]
    omega
  · intro h
    simp only [Rulf.parse_file]
    rw [parseLoop_no_marker _ _ _ h]
    omega
  · intro i l hget hm hb
    simp only [Base4.parse_file]
    rw [parseLoop_marker _ _ _ i l hget hm hb]
    omega
  · intro h
    simp only [Base4.parse_file]
    rw [parseLoop_no_marker _ _ _ h]
    omega

/-- C1 witness: concrete instances of the amended claim.  For the two-line
file whose marker `#[cfg(test)]` is on line 2, `rulf`'s `parse_file` returns
2; for a marker-free two-line file, `base_4`'s `parse_file` returns 3. -/
theorem claim_C1_witness :
    Rulf.parse_file ["fn a() {}", "#[cfg(test)]"] = 2 ∧
    Base4.parse_file ["fn a() {}", "fn b() {}"] = 3 := by
  constructor
  · exact (claim_C1 ["fn a() {}", "#[cfg(test)]"]).1 1 "#[cfg(test)]" rfl
      (by decide)
      (fun j l' hj hg => by
        interval_cases j
        simp only [List.get?_cons_zero, Option.some.injEq] at hg
        subst hg
        decide)
  · exact (claim_C1 ["fn a() {}", "fn b() {}"]).2.2.2 (by decide)

/-- C1 counterexample: the claim as stated is false on concrete files.  For
the three-line file with its first marker on line `M = 2` the claim predicts
boundary `M - 1 = 1`, but `rulf`'s `parse_file` returns 2; for a marker-free
two-line file (`N = 2`) the claim predicts 2, but `base_4`'s `parse_file`
returns 3. -/
theorem claim_C1_counterexample :
    Rulf.parse_file ["fn a() {}", "#[cfg(test)]", "mod tests;"] = 2 ∧
    (2 : Nat) ≠ 1 ∧
    Base4.parse_file ["fn a() {}", "fn b() {}"] = 3 ∧ (3 : Nat) ≠ 2 := by
  exact ⟨by decide, by decide, by decide, by decide⟩

/-! ## Persist step (C8) -/

/-- C8 (corrected).  The claim states persist writes to a temporary path and
renames it over the target so that no intermediate state shows a partial
snapshot and a failure leaves the prior snapshot intact.  The code instead
opens the target itself with mode `'w'` and writes in place: its operation
sequence is exactly `[truncate target, write target data]` (no temporary
path, no rename), the final state holds the full serialized store and no
other path is touched, but the intermediate state — after the truncating
open, before the write completes — shows an empty snapshot at the target
regardless of its prior content, so a failure at that point has destroyed
the prior snapshot. -/
theorem claim_C8 (fsys : String → Option String) (path data : String) :
    (∀ q, applyOps fsys (persistOps path data) q =
        if q = path then some data else fsys q) ∧
    applyOps fsys [FsOp.truncate path] path = some "" ∧
    persistOps path data = [FsOp.truncate path, FsOp.write path data] := by
  refine ⟨?_, ?_, rfl⟩
  · intro q
    by_cases hq : q = path
    · subst hq
      simp [applyOps, applyOp, persistOps]
    · simp [applyOps, applyOp, persistOps, hq]
  · simp [applyOps, applyOp]

/-- C8 counterexample: with prior snapshot content `"OLD"` at
`cov_map.json` and new serialized store `"NEW"`, the state reached after the
first of the two persist operations (the truncating open) shows content
`""` at the snapshot path — neither the prior `"OLD"` (so a failure here
has lost the previous coverage history) nor the complete `"NEW"` (so a
concurrent reader sees a half-written snapshot), refuting the claimed
temp-write-then-rename behavior. -/
theorem claim_C8_counterexample :
    (persistOps "cov_map.json" "NEW").take 1 = [FsOp.truncate "cov_map.json"] ∧
    applyOps (fun q => if q = "cov_map.json" then some "OLD" else none)
        ((persistOps "cov_map.json" "NEW").take 1) "cov_map.json" = some "" ∧
    some "" ≠ some "OLD" ∧ (some "" : Option String) ≠ some "NEW" ∧
    applyOps (fun q => if q = "cov_map.json" then some "OLD" else none)
        (persistOps "cov_map.json" "NEW") "cov_map.json" = some "NEW" := by
  refine ⟨rfl, ?_, by decide, by decide, ?_⟩
  · simp [applyOps, applyOp, persistOps]
  · simp [applyOps, applyOp, persistOps]

/-! ## Empty filename list (C9) -/

/-- C9 (confirmed).  The guard `assert len(func['filenames']) <= 1` does not
reject a function record with an empty filenames list (its length 0
satisfies the assert), and the subsequent `func['filenames'][0]` access then
fails with an unguarded IndexError — the record is neither filtered nor
skipped; processing of the export aborts with the error.  Stated for the
`rug-gpt/cov_collect.py` and `llm_4_base_cov/main.py` variants. -/
theorem claim_C9 (root : String) (fs : String → List String)
    (rs : List RawRegion) (st4 : Base4.St) (stC : CovCollect.St) :
    ({ filenames := [], regions := rs } : FuncRecord).filenames.length ≤ 1 ∧
    Base4.processFunc root fs st4 { filenames := [], regions := rs } =
      .error "IndexError: list index out of range" ∧
    CovCollect.processFunc root fs stC { filenames := [], regions := rs } =
      .error "IndexError: list index out of range" := by
  refine ⟨by simp, ?_, ?_⟩
  · simp [Base4.processFunc, pyIndex]
  · simp [CovCollect.processFunc, pyIndex]

/-! ## The region key is deterministic and injective (C10) -/

theorem pyStrCore_digits (fuel : Nat) :
    ∀ n c, c ∈ pyStrCore fuel n → ∃ d, d < 10 ∧ c = Nat.digitChar d := by
  induction fuel with
  | zero =>
    intro n c hc
    cases n <;> simp [pyStrCore] at hc
  | succ f ih =>
    intro n c hc
    cases n with
    | zero => simp [pyStrCore] at hc
    | succ n' =>
      simp only [pyStrCore, List.mem_append, List.mem_singleton] at hc
      rcases hc with hc | hc
      · exact ih _ c hc
      · exact ⟨(n' + 1) % 10, Nat.mod_lt _ (by norm_num), hc⟩

theorem digitChar_ne_slash : ∀ d, d < 10 → Nat.digitChar d ≠ '/' := by decide

theorem digitChar_toNat : ∀ d, d < 10 → (Nat.digitChar d).toNat = 48 + d := by
  decide

theorem pyStr_data (n : Nat) (h : n ≠ 0) : (pyStr n).data = pyStrCore n n := by
  simp [pyStr, h]

theorem slash_not_mem_pyStr (n : Nat) : '/' ∉ (pyStr n).data := by
  by_cases h : n = 0
  · subst h
    decide
  · intro hmem
    rw [pyStr_data n h] at hmem
    obtain ⟨d, hd10, hc⟩ := pyStrCore_digits n n '/' hmem
    exact digitChar_ne_slash d hd10 hc.symm

theorem foldl_pyStrCore (fuel : Nat) :
    ∀ n acc, n ≤ fuel →
      List.foldl (fun acc c => acc * 10 + (c.toNat - 48)) acc
          (pyStrCore fuel n) =
        acc * 10 ^ (pyStrCore fuel n).length + n := by
  induction fuel with
  | zero =>
    intro n acc hn
    have hn0 : n = 0 := by omega
    subst hn0
    simp [pyStrCore]
  | succ f ih =>
    intro n acc hn
    cases n with
    | zero => simp [pyStrCore]
    | succ n' =>
      have hdiv : (n' + 1) / 10 ≤ f := by
        have h1 : (n' + 1) / 10 < n' + 1 :=
          Nat.div_lt_self (Nat.succ_pos n') (by norm_num)
        omega
      simp only [pyStrCore, List.foldl_append, List.foldl_cons, List.foldl_nil,
        List.length_append, List.length_cons, List.length_nil]
      rw [ih _ acc hdiv]
      rw [digitChar_toNat _ (Nat.mod_lt _ (by norm_num))]
      have hdm := Nat.div_add_mod (n' + 1) 10
      rw [pow_succ, ← mul_assoc]
      omega

theorem strToNat_pyStr (n : Nat) : strToNat (pyStr n).data = n := by
  by_cases h : n = 0
  · subst h
    decide
  · rw [strToNat, pyStr_data n h, foldl_pyStrCore n n 0 le_rfl]
    simp

theorem pyStr_injective {m n : Nat} (h : pyStr m = pyStr n) : m = n := by
  have := congrArg (fun s => strToNat s.data) h
  simpa [strToNat_pyStr] using this

theorem splitLast {t1 t2 s1 s2 : List Char}
    (h : t1 ++ '/' :: s1 = t2 ++ '/' :: s2)
    (h1 : '/' ∉ s1) (h2 : '/' ∉ s2) : t1 = t2 ∧ s1 = s2 := by
  induction t1 generalizing t2 with
  | nil =>
    cases t2 with
    | nil => simpa using h
    | cons c t2' =>
      exfalso
      simp only [List.nil_append, List.cons_append, List.cons.injEq] at h
      apply h1
      rw [h.2]
      exact List.mem_append_right _ (List.mem_cons_self _ _)
  | cons c t1' ih =>
    cases t2 with
    | nil =>
      exfalso
      simp only [List.nil_append, List.cons_append, List.cons.injEq] at h
      apply h2
      rw [← h.2]
      exact List.mem_append_right _ (List.mem_cons_self _ _)
    | cons d t2' =>
      simp only [List.cons_append, List.cons.injEq] at h
      obtain ⟨hcd, hrest⟩ := h
      obtain ⟨ht, hs⟩ := ih hrest
      exact ⟨by rw [hcd, ht], hs⟩

theorem data_append (s t : String) : (s ++ t).data = s.data ++ t.data := rfl

theorem string_ext {s t : String} (h : s.data = t.data) : s = t :=
  congrArg String.mk h

theorem appendNum_inj {x1 x2 : String} {n1 n2 : Nat}
    (h : x1 ++ "/" ++ pyStr n1 = x2 ++ "/" ++ pyStr n2) :
    x1 = x2 ∧ n1 = n2 := by
  have hd := congrArg String.data h
  simp only [data_append] at hd
  have h1 : x1.data ++ '/' :: (pyStr n1).data =
      x2.data ++ '/' :: (pyStr n2).data := by
    simpa [List.append_assoc] using hd
  obtain ⟨hx, hn⟩ :=
    splitLast h1 (slash_not_mem_pyStr n1) (slash_not_mem_pyStr n2)
  exact ⟨string_ext hx, pyStr_injective (string_ext hn)⟩

theorem regionKeyRaw_inj {f1 f2 : String} {a1 b1 c1 d1 a2 b2 c2 d2 : Nat}
    (h : regionKeyRaw f1 a1 b1 c1 d1 = regionKeyRaw f2 a2 b2 c2 d2) :
    f1 = f2 ∧ a1 = a2 ∧ b1 = b2 ∧ c1 = c2 ∧ d1 = d2 := by
  unfold regionKeyRaw at h
  obtain ⟨h3, hd⟩ := appendNum_inj h
  obtain ⟨h2, hc⟩ := appendNum_inj h3
  obtain ⟨h1, hb⟩ := appendNum_inj h2
  obtain ⟨h0, ha⟩ := appendNum_inj h1
  exact ⟨h0, ha, hb, hc, hd⟩

theorem regionKey_inj {fl1 fl2 : String} {r1 r2 : RawRegion}
    (h : regionKey fl1 r1 = regionKey fl2 r2) :
    fl1 = fl2 ∧ r1.lst = r2.lst ∧ r1.scol = r2.scol ∧ r1.led = r2.led ∧
      r1.ecol = r2.ecol :=
  regionKeyRaw_inj h

/-- C10 (corrected).  The claim asserts the key map is deterministic but NOT
injective, suggesting a path containing slashes and digits could collide
with another tuple.  Determinism holds, but the key map is in fact
injective: the key appends exactly four slash-separated decimal fields to
the file path, the digit fields contain no `'/'`, so the decomposition of a
key from its right end is unique and two distinct
`(filePath, startLine, startCol, endLine, endCol)` tuples always produce
distinct key strings — regions from different source constructs are never
merged into one store entry by key collision. -/
theorem claim_C10 :
    (∀ (f1 : String) (a1 b1 c1 d1 : Nat) (f2 : String) (a2 b2 c2 d2 : Nat),
        (f1, a1, b1, c1, d1) =
          ((f2, a2, b2, c2, d2) : String × Nat × Nat × Nat × Nat) →
        regionKeyRaw f1 a1 b1 c1 d1 = regionKeyRaw f2 a2 b2 c2 d2) ∧
    (∀ (f1 : String) (a1 b1 c1 d1 : Nat) (f2 : String) (a2 b2 c2 d2 : Nat),
        regionKeyRaw f1 a1 b1 c1 d1 = regionKeyRaw f2 a2 b2 c2 d2 →
        (f1, a1, b1, c1, d1) =
          ((f2, a2, b2, c2, d2) : String × Nat × Nat × Nat × Nat)) := by
  constructor
  · intro f1 a1 b1 c1 d1 f2 a2 b2 c2 d2 h
    simp only [Prod.mk.injEq] at h
    obtain ⟨h0, ha, hb, hc, hd⟩ := h
    rw [h0, ha, hb, hc, hd]
  · intro f1 a1 b1 c1 d1 f2 a2 b2 c2 d2 h
    obtain ⟨h0, ha, hb, hc, hd⟩ := regionKeyRaw_inj h
    simp [h0, ha, hb, hc, hd]

/-- C10 witness: the amended claim applied at a concrete key equation. -/
theorem claim_C10_witness :
    ("src/lib.rs", 10, 2, 30, 4) =
      (("src/lib.rs", 10, 2, 30, 4) : String × Nat × Nat × Nat × Nat) :=
  claim_C10.2 "src/lib.rs" 10 2 30 4 "src/lib.rs" 10 2 30 4 rfl

/-- C10 counterexample: the claimed pair of distinct coordinate tuples with
identical key strings does not exist. -/
theorem claim_C10_counterexample :
    ¬ ∃ (f1 : String) (a1 b1 c1 d1 : Nat) (f2 : String) (a2 b2 c2 d2 : Nat),
        (f1, a1, b1, c1, d1) ≠
          ((f2, a2, b2, c2, d2) : String × Nat × Nat × Nat × Nat) ∧
        regionKeyRaw f1 a1 b1 c1 d1 = regionKeyRaw f2 a2 b2 c2 d2 := by
  rintro ⟨f1, a1, b1, c1, d1, f2, a2, b2, c2, d2, hne, heq⟩
  apply hne
  obtain ⟨h0, ha, hb, hc, hd⟩ := regionKeyRaw_inj heq
  simp [h0, ha, hb, hc, hd]

theorem cacheStep_snd {pf : String → Nat} {map : List (String × Nat)}
    {fl : String} (h : ∀ p ∈ map, p.2 = pf p.1) :
    (cacheStep pf map fl).2 = pf fl := by
  unfold cacheStep
  cases hm : dictMem map fl with
  | true =>
    rcases dictMem_iff.mp hm with ⟨v, hv⟩
    have hvp := h (fl, v) (dictGet?_mem hv)
    simp only [hm, if_true, dictGetD, hv, Option.getD_some]
    exact hvp
  | false => simp [hm, dictGetD, dictGet?_dictSet_self]

theorem cacheStep_coherent (pf : String → Nat) {map : List (String × Nat)}
    {fl : String} (h : ∀ p ∈ map, p.2 = pf p.1) :
    ∀ p ∈ (cacheStep pf map fl).1, p.2 = pf p.1 := by
  unfold cacheStep
  cases hm : dictMem map fl with
  | true => simpa [hm] using h
  | false =>
    simp only [hm, Bool.false_eq_true, if_false]
    intro p hp
    rcases mem_dictSet hp with h1 | h1
    · exact h p h1
    · rw [h1]

/-! ## Flattening the `base_4` merge into a normalized update stream -/

namespace Base4

theorem regionLoop_eq_foldUps (limit : Nat) (fl : String) :
    ∀ (rs : List RawRegion) (m : List (String × Nat)),
      regionLoop limit fl m rs =
        foldUps m ((rs.takeWhile (fun r => decide (r.led ≤ limit))).map
          (fun r => (regionKey fl r, r.count))) := by
  intro rs
  induction rs with
  | nil => intro m; rfl
  | cons r rs ih =>
    intro m
    by_cases hled : r.led > limit
    · have hf : decide (r.led ≤ limit) = false := by
        simp only [decide_eq_false_iff_not]
        omega
      simp [regionLoop, hled, List.takeWhile_cons, hf, foldUps]
    · have ht : decide (r.led ≤ limit) = true := by
        simp only [decide_eq_true_eq]
        omega
      simp only [regionLoop, if_neg hled, List.takeWhile_cons, ht, if_true,
        List.map_cons, foldUps, List.foldl_cons]
      rw [ih]
      rfl

theorem processFunc_ok {root : String} {fs : String → List String}
    {st st' : St} {func : FuncRecord}
    (hco : ∀ p ∈ st.map, p.2 = parse_file (fs p.1))
    (h : processFunc root fs st func = .ok st') :
    st'.mamp_reg = foldUps st.mamp_reg (funcUps root fs func) ∧
    ∀ p ∈ st'.map, p.2 = parse_file (fs p.1) := by
  unfold processFunc at h
  by_cases hlen : func.filenames.length ≤ 1
  · rw [if_pos hlen] at h
    cases hfn : func.filenames with
    | nil =>
      rw [hfn] at h
      simp [pyIndex] at h
    | cons fl fls =>
      rw [hfn] at h
      simp only [pyIndex, List.get?_cons_zero] at h
      by_cases hroot : pyIn root fl = true
      · rw [if_pos hroot] at h
        simp only [Except.ok.injEq] at h
        subst h
        constructor
        · show regionLoop (cacheStep (fun f => parse_file (fs f)) st.map fl).2
              fl st.mamp_reg func.regions = _
          rw [cacheStep_snd hco, regionLoop_eq_foldUps]
          simp [funcUps, hfn, hroot]
        · exact cacheStep_coherent (fun f => parse_file (fs f)) hco
      · rw [if_neg hroot] at h
        simp only [Except.ok.injEq] at h
        subst h
        constructor
        · simp [funcUps, hfn, hroot, foldUps]
        · exact hco
  · rw [if_neg hlen] at h
    simp at h

theorem runFuncs_ok {root : String} {fs : String → List String} :
    ∀ (funcs : List FuncRecord) (st st' : St),
      (∀ p ∈ st.map, p.2 = parse_file (fs p.1)) →
      runFuncs root fs st funcs = .ok st' →
      st'.mamp_reg = foldUps st.mamp_reg (updates root fs funcs) ∧
      ∀ p ∈ st'.map, p.2 = parse_file (fs p.1) := by
  intro funcs
  induction funcs with
  | nil =>
    intro st st' hco h
    simp only [runFuncs, Except.ok.injEq] at h
    subst h
    exact ⟨rfl, hco⟩
  | cons f fsn ih =>
    intro st st' hco h
    simp only [runFuncs] at h
    cases hpf : processFunc root fs st f with
    | error e =>
      rw [hpf] at h
      simp at h
    | ok st1 =>
      rw [hpf] at h
      obtain ⟨hm1, hco1⟩ := processFunc_ok hco hpf
      obtain ⟨hm2, hco2⟩ := ih st1 st' hco1 h
      refine ⟨?_, hco2⟩
      rw [hm2, hm1]
      simp [updates, foldUps, List.foldl_append]

theorem dictGet?_foldUps (ups : List (String × Nat)) :
    ∀ (m : List (String × Nat)) (k : String),
      dictGet? (foldUps m ups) k =
        if hasPos ups k then some 1
        else
          match dictGet? m k with
          | some v => some v
          | none => if hasKey ups k then some 0 else none := by
  induction ups with
  | nil =>
    intro m k
    cases h : dictGet? m k <;> simp [foldUps, hasPos, hasKey, h]
  | cons u ups ih =>
    intro m k
    have hfold : foldUps m (u :: ups) = foldUps (applyUp m u) ups := rfl
    rw [hfold, ih]
    by_cases hk : u.1 = k
    · by_cases hc : 0 < u.2
      · have h1 : dictGet? (applyUp m u) k = some 1 := by
          rw [applyUp, if_pos hc, hk]
          exact dictGet?_dictSet_self _ _ _
        have hp : hasPos (u :: ups) k = true := by
          simp only [hasPos, List.any_cons, Bool.or_eq_true, Bool.and_eq_true,
            decide_eq_true_eq]
          exact Or.inl ⟨by simp [hk], hc⟩
        rw [h1, hp]
        cases hps : hasPos ups k <;> simp [hasPos] at hps ⊢ <;> simp [hps]
      · have hc0 : u.2 = 0 := by omega
        have h1 : dictGet? (applyUp m u) k = some (dictGetD m k 0) := by
          rw [applyUp, if_neg hc, hk]
          exact dictGet?_dictSet_self _ _ _
        have hp : hasPos (u :: ups) k = hasPos ups k := by
          simp [hasPos, List.any_cons, hc0]
        have hky : hasKey (u :: ups) k = true := by
          simp [hasKey, List.any_cons, hk]
        rw [h1, hp, hky]
        cases hps : hasPos ups k
        · simp only [Bool.false_eq_true, if_false, if_true]
          cases hg : dictGet? m k <;> simp [dictGetD, hg]
        · simp
    · have h1 : dictGet? (applyUp m u) k = dictGet? m k := by
        rw [applyUp]
        split <;> exact dictGet?_dictSet_ne _ _ _ _ (fun hh => hk hh.symm)
      have hp : hasPos (u :: ups) k = hasPos ups k := by
        simp [hasPos, List.any_cons, hk]
      have hky : hasKey (u :: ups) k = hasKey ups k := by
        simp [hasKey, List.any_cons, hk]
      rw [h1, hp, hky]

theorem hasKey_of_hasPos {ups : List (String × Nat)} {k : String}
    (h : hasPos ups k = true) : hasKey ups k = true := by
  simp only [hasPos, List.any_eq_true, Bool.and_eq_true] at h
  obtain ⟨u, hu, h1, _⟩ := h
  simp only [hasKey, List.any_eq_true]
  exact ⟨u, hu, h1⟩

theorem foldUps_no_op :
    ∀ (ups : List (String × Nat)) (m : List (String × Nat)),
      (∀ u ∈ ups, (0 < u.2 → dictGet? m u.1 = some 1) ∧
                  (u.2 = 0 → dictMem m u.1 = true)) →
      foldUps m ups = m := by
  intro ups
  induction ups with
  | nil => intro m _; rfl
  | cons u ups ih =>
    intro m h
    have hu := h u (by simp)
    have hstep : applyUp m u = m := by
      unfold applyUp
      by_cases hc : 0 < u.2
      · rw [if_pos hc]
        exact dictSet_eq_self (hu.1 hc)
      · rw [if_neg hc]
        have h0 : u.2 = 0 := by omega
        rcases dictMem_iff.mp (hu.2 h0) with ⟨v, hv⟩
        have hgd : dictGetD m u.1 0 = v := by simp [dictGetD, hv]
        rw [hgd]
        exact dictSet_eq_self hv
    have hfold : foldUps m (u :: ups) = foldUps (applyUp m u) ups := rfl
    rw [hfold, hstep]
    exact ih m (fun u' hu' => h u' (by simp [hu']))

theorem foldUps_contributed (ups : List (String × Nat))
    (m : List (String × Nat)) :
    ∀ u ∈ ups, (0 < u.2 → dictGet? (foldUps m ups) u.1 = some 1) ∧
               (u.2 = 0 → dictMem (foldUps m ups) u.1 = true) := by
  intro u hu
  constructor
  · intro hc
    rw [dictGet?_foldUps]
    have hp : hasPos ups u.1 = true := by
      simp only [hasPos, List.any_eq_true, Bool.and_eq_true, decide_eq_true_eq]
      exact ⟨u, hu, by simp, hc⟩
    simp [hp]
  · intro h0
    rw [dictMem, dictGet?_foldUps]
    cases hps : hasPos ups u.1 with
    | true => simp
    | false =>
      have hk : hasKey ups u.1 = true := by
        simp only [hasKey, List.any_eq_true, decide_eq_true_eq]
        exact ⟨u, hu, by simp⟩
      cases hg : dictGet? m u.1 <;> simp [hk]

theorem foldUps_idem (m : List (String × Nat)) (ups : List (String × Nat)) :
    foldUps (foldUps m ups) ups = foldUps m ups :=
  foldUps_no_op ups _ (foldUps_contributed ups m)

theorem collect_result_ok {root : String} {fs : String → List String}
    {mamp0 m1 : List (String × Nat)} {funcs : List FuncRecord}
    (h : collect_result root fs mamp0 funcs = .ok m1) :
    m1 = foldUps mamp0 (updates root fs funcs) := by
  unfold collect_result at h
  cases hr : runFuncs root fs { map := [], mamp_reg := mamp0 } funcs with
  | error e =>
    rw [hr] at h
    simp at h
  | ok st =>
    rw [hr] at h
    simp only [Except.ok.injEq] at h
    subst h
    exact (runFuncs_ok funcs _ st (by simp) hr).1

theorem length_le_applyUp (m : List (String × Nat)) (u : String × Nat) :
    m.length ≤ (applyUp m u).length := by
  rw [applyUp]
  split <;> exact length_le_dictSet _ _ _

theorem foldUps_length_le (ups : List (String × Nat)) :
    ∀ m, m.length ≤ (foldUps m ups).length := by
  induction ups with
  | nil => intro m; exact le_rfl
  | cons u ups ih =>
    intro m
    have hfold : foldUps m (u :: ups) = foldUps (applyUp m u) ups := rfl
    rw [hfold]
    exact le_trans (length_le_applyUp m u) (ih (applyUp m u))

theorem countVal_le_applyUp (m : List (String × Nat)) (u : String × Nat) :
    countVal (fun v => decide (v ≠ 0)) m ≤
      countVal (fun v => decide (v ≠ 0)) (applyUp m u) := by
  rw [applyUp]
  split
  · exact countVal_dictSet_ge _ m u.1 1 (fun v0 _ _ => by decide)
  · exact countVal_dictSet_ge _ m u.1 (dictGetD m u.1 0)
      (fun v0 hg hp => by simpa [dictGetD, hg] using hp)

theorem foldUps_countVal_le (ups : List (String × Nat)) :
    ∀ m, countVal (fun v => decide (v ≠ 0)) m ≤
      countVal (fun v => decide (v ≠ 0)) (foldUps m ups) := by
  induction ups with
  | nil => intro m; exact le_rfl
  | cons u ups ih =>
    intro m
    have hfold : foldUps m (u :: ups) = foldUps (applyUp m u) ups := rfl
    rw [hfold]
    exact le_trans (countVal_le_applyUp m u) (ih (applyUp m u))

theorem applyUp_getD_ne {m : List (String × Nat)} {k : String}
    (u : String × Nat) (h : dictGetD m k 0 ≠ 0) :
    dictGetD (applyUp m u) k 0 ≠ 0 := by
  by_cases hk : u.1 = k
  · rw [applyUp, hk]
    by_cases hc : 0 < u.2
    · simp [hc, dictGetD, dictGet?_dictSet_self]
    · simpa [hc, dictGetD, dictGet?_dictSet_self] using h
  · rw [applyUp]
    split <;>
      simpa [dictGetD, dictGet?_dictSet_ne _ _ _ _ (fun hh => hk hh.symm)]
        using h

theorem foldUps_getD_ne (ups : List (String × Nat)) :
    ∀ m k, dictGetD m k 0 ≠ 0 → dictGetD (foldUps m ups) k 0 ≠ 0 := by
  induction ups with
  | nil => intro m k h; exact h
  | cons u ups ih =>
    intro m k h
    have hfold : foldUps m (u :: ups) = foldUps (applyUp m u) ups := rfl
    rw [hfold]
    exact ih (applyUp m u) k (applyUp_getD_ne u h)

theorem foldUps_getD_ne_iff (ups : List (String × Nat))
    (m : List (String × Nat)) (k : String) :
    dictGetD (foldUps m ups) k 0 ≠ 0 ↔
      (hasPos ups k = true ∨ dictGetD m k 0 ≠ 0) := by
  rw [dictGetD, dictGet?_foldUps]
  cases hps : hasPos ups k with
  | true => simp
  | false =>
    simp only [Bool.false_eq_true, if_false, false_or]
    cases hg : dictGet? m k with
    | none =>
      cases hk : hasKey ups k <;> simp [dictGetD, hg]
    | some v => simp [dictGetD, hg]

theorem dictMem_foldUps {ups m : List (String × Nat)} {k : String}
    (h : dictMem (foldUps m ups) k = true) :
    dictMem m k = true ∨ hasKey ups k = true := by
  rw [dictMem, dictGet?_foldUps] at h
  cases hps : hasPos ups k with
  | true => exact Or.inr (hasKey_of_hasPos hps)
  | false =>
    rw [hps] at h
    simp only [Bool.false_eq_true, if_false] at h
    cases hg : dictGet? m k with
    | some v => exact Or.inl (by simp [dictMem, hg])
    | none =>
      rw [hg] at h
      cases hk : hasKey ups k with
      | true => exact Or.inr rfl
      | false => rw [hk] at h; simp at h

theorem mem_funcUps {root : String} {fs : String → List String}
    {func : FuncRecord} {u : String × Nat} :
    u ∈ funcUps root fs func ↔
      ∃ fl, func.filenames.head? = some fl ∧ pyIn root fl = true ∧
        ∃ r ∈ func.regions.takeWhile
            (fun r => decide (r.led ≤ parse_file (fs fl))),
          u = (regionKey fl r, r.count) := by
  unfold funcUps
  cases hh : func.filenames.head? with
  | none => simp
  | some fl =>
    by_cases hr : pyIn root fl = true
    · simp only [hr, if_true, List.mem_map, Option.some.injEq]
      constructor
      · rintro ⟨r, hrm, rfl⟩
        exact ⟨fl, rfl, hr, r, hrm, rfl⟩
      · rintro ⟨fl', hfl', hr', r, hrm, rfl⟩
        subst hfl'
        exact ⟨r, hrm, rfl⟩
    · have hr0 : pyIn root fl = false := by
        cases hpy : pyIn root fl
        · rfl
        · exact absurd hpy hr
      simp only [hr0, Bool.false_eq_true, if_false, List.not_mem_nil, false_iff]
      rintro ⟨fl', hfl', hr', -⟩
      rw [Option.some.injEq] at hfl'
      subst hfl'
      exact hr hr'

theorem mem_updates {root : String} {fs : String → List String}
    {funcs : List FuncRecord} {u : String × Nat}
    (h : u ∈ updates root fs funcs) :
    ∃ func ∈ funcs, u ∈ funcUps root fs func := by
  unfold updates at h
  rw [List.mem_flatten] at h
  obtain ⟨l, hl, hu⟩ := h
  rw [List.mem_map] at hl
  obtain ⟨func, hf, rfl⟩ := hl
  exact ⟨func, hf, hu⟩

end Base4

/-! ## Flattening the `rulf` count-mode merge -/

namespace Rulf

theorem regionLoop_eq_foldUpsR (limit : Nat) (fl : String) :
    ∀ (rs : List RawRegion) (m : List (String × Int × Nat)),
      regionLoop limit fl m rs =
        foldUps m ((rs.filter (fun r => decide (r.led ≤ limit))).map
          (fun r => ⟨regionKey fl r, (r.led : Int) - (r.lst : Int) + 1,
                     r.count⟩)) := by
  intro rs
  induction rs with
  | nil => intro m; rfl
  | cons r rs ih =>
    intro m
    by_cases hled : r.led > limit
    · have hf : decide (r.led ≤ limit) = false := by
        simp only [decide_eq_false_iff_not]
        omega
      simp only [regionLoop, if_pos hled, List.filter_cons, hf,
        Bool.false_eq_true, if_false]
      exact ih m
    · have ht : decide (r.led ≤ limit) = true := by
        simp only [decide_eq_true_eq]
        omega
      simp only [regionLoop, if_neg hled, List.filter_cons, ht, if_true,
        List.map_cons, foldUps, List.foldl_cons]
      rw [ih]
      rfl

theorem processFunc_okR {root : String} {fs : String → List String}
    {st st' : St} {func : FuncRecord}
    (hco : ∀ p ∈ st.map, p.2 = parse_file (fs p.1))
    (h : processFunc root fs st func = .ok st') :
    st'.mamp_reg = foldUps st.mamp_reg (funcUps root fs func) ∧
    ∀ p ∈ st'.map, p.2 = parse_file (fs p.1) := by
  unfold processFunc at h
  by_cases hlen : func.filenames.length ≤ 1
  · rw [if_pos hlen] at h
    cases hfn : func.filenames with
    | nil =>
      rw [hfn] at h
      simp [pyIndex] at h
    | cons fl fls =>
      rw [hfn] at h
      simp only [pyIndex, List.get?_cons_zero] at h
      by_cases hroot : (pyIn root fl && pyIn "src/" fl) = true
      · rw [if_pos hroot] at h
        simp only [Except.ok.injEq] at h
        subst h
        constructor
        · show regionLoop (cacheStep (fun f => parse_file (fs f)) st.map fl).2
              fl st.mamp_reg func.regions = _
          rw [cacheStep_snd hco, regionLoop_eq_foldUpsR]
          simp [funcUps, hfn, hroot]
        · exact cacheStep_coherent (fun f => parse_file (fs f)) hco
      · rw [if_neg hroot] at h
        simp only [Except.ok.injEq] at h
        subst h
        constructor
        · have hroot0 : (pyIn root fl && pyIn "src/" fl) = false := by
            cases hb : (pyIn root fl && pyIn "src/" fl)
            · rfl
            · exact absurd hb hroot
          simp [funcUps, hfn, hroot0, foldUps]
        · exact hco
  · rw [if_neg hlen] at h
    simp at h

theorem runFuncs_okR {root : String} {fs : String → List String} :
    ∀ (funcs : List FuncRecord) (st st' : St),
      (∀ p ∈ st.map, p.2 = parse_file (fs p.1)) →
      runFuncs root fs st funcs = .ok st' →
      st'.mamp_reg = foldUps st.mamp_reg (updates root fs funcs) ∧
      ∀ p ∈ st'.map, p.2 = parse_file (fs p.1) := by
  intro funcs
  induction funcs with
  | nil =>
    intro st st' hco h
    simp only [runFuncs, Except.ok.injEq] at h
    subst h
    exact ⟨rfl, hco⟩
  | cons f fsn ih =>
    intro st st' hco h
    simp only [runFuncs] at h
    cases hpf : processFunc root fs st f with
    | error e =>
      rw [hpf] at h
      simp at h
    | ok st1 =>
      rw [hpf] at h
      obtain ⟨hm1, hco1⟩ := processFunc_okR hco hpf
      obtain ⟨hm2, hco2⟩ := ih st1 st' hco1 h
      refine ⟨?_, hco2⟩
      rw [hm2, hm1]
      simp [updates, foldUps, List.foldl_append]

theorem sumCounts_cons (u : Up) (ups : List Up) (k : String) :
    sumCounts (u :: ups) k =
      (if u.key = k then u.count else 0) + sumCounts ups k := by
  unfold sumCounts
  rw [List.filter_cons]
  by_cases hk : u.key = k
  · simp [hk]
  · simp [hk]

theorem firstSpan_cons (u : Up) (ups : List Up) (k : String) :
    firstSpan (u :: ups) k =
      if u.key = k then some u.span else firstSpan ups k := by
  unfold firstSpan
  by_cases hk : u.key = k
  · rw [List.find?_cons_of_pos _ (by simp [hk]), if_pos hk]
    rfl
  · rw [List.find?_cons_of_neg _ (by simp [hk]), if_neg hk]

theorem dictGet?_foldUpsR (ups : List Up) :
    ∀ (m : List (String × Int × Nat)) (k : String),
      dictGet? (foldUps m ups) k =
        match dictGet? m k with
        | some v => some (v.1, v.2 + sumCounts ups k)
        | none =>
          match firstSpan ups k with
          | some sp => some (sp, sumCounts ups k)
          | none => none := by
  induction ups with
  | nil =>
    intro m k
    cases h : dictGet? m k <;> simp [foldUps, sumCounts, firstSpan, h]
  | cons u ups ih =>
    intro m k
    have hfold : foldUps m (u :: ups) = foldUps (applyUp m u) ups := rfl
    rw [hfold, ih, sumCounts_cons, firstSpan_cons]
    by_cases hk : u.key = k
    · rw [if_pos hk, if_pos hk]
      cases hg : dictGet? m k with
      | some v =>
        have h1 : dictGet? (applyUp m u) k = some (v.1, v.2 + u.count) := by
          rw [applyUp, hk, hg]
          exact dictGet?_dictSet_self _ _ _
        rw [h1]
        simp [Nat.add_assoc]
      | none =>
        have h1 : dictGet? (applyUp m u) k = some (u.span, u.count) := by
          rw [applyUp, hk, hg]
          exact dictGet?_dictSet_self _ _ _
        rw [h1]
    · rw [if_neg hk, if_neg hk]
      have h1 : dictGet? (applyUp m u) k = dictGet? m k := by
        rw [applyUp]
        cases hg : dictGet? m u.key <;>
          exact dictGet?_dictSet_ne _ _ _ _ (fun hh => hk hh.symm)
      rw [h1]
      simp

theorem count_le_sumCounts {ups : List Up} {u : Up} (hu : u ∈ ups) :
    u.count ≤ sumCounts ups u.key := by
  unfold sumCounts
  have hmem : u.count ∈
      ((ups.filter (fun u' => decide (u'.key = u.key))).map
        (fun u' => u'.count)) :=
    List.mem_map_of_mem _ (List.mem_filter.mpr ⟨hu, by simp⟩)
  exact List.single_le_sum (fun x _ => Nat.zero_le x) _ hmem

theorem foldUps_supplies (ups : List Up) (m : List (String × Int × Nat)) :
    ∀ u ∈ ups, ∃ v, dictGet? (foldUps m ups) u.key = some v ∧
      u.count ≤ v.2 := by
  intro u hu
  rw [dictGet?_foldUpsR]
  cases hg : dictGet? m u.key with
  | some v =>
    exact ⟨(v.1, v.2 + sumCounts ups u.key), rfl,
      le_trans (count_le_sumCounts hu) (Nat.le_add_left _ _)⟩
  | none =>
    have hfind : (ups.find? (fun u' => decide (u'.key = u.key))).isSome := by
      rw [List.find?_isSome]
      exact ⟨u, hu, by simp⟩
    rcases Option.isSome_iff_exists.mp hfind with ⟨u0, hu0⟩
    have hfs : firstSpan ups u.key = some u0.span := by
      simp [firstSpan, hu0]
    rw [hfs]
    exact ⟨(u0.span, sumCounts ups u.key), rfl, count_le_sumCounts hu⟩

theorem metrics_applyUp_eq {m : List (String × Int × Nat)} {u : Up}
    (h : ∃ v, dictGet? m u.key = some v ∧ u.count ≤ v.2) :
    (applyUp m u).length = m.length ∧
    countVal (fun v => decide (0 < v.2)) (applyUp m u) =
      countVal (fun v => decide (0 < v.2)) m ∧
    sumVal (fun v => v.1) (applyUp m u) = sumVal (fun v => v.1) m ∧
    sumValP (fun v => decide (0 < v.2)) (fun v => v.1) (applyUp m u) =
      sumValP (fun v => decide (0 < v.2)) (fun v => v.1) m := by
  obtain ⟨v, hv, hc⟩ := h
  have happ : applyUp m u = dictSet m u.key (v.1, v.2 + u.count) := by
    rw [applyUp, hv]
  have hiff : decide (0 < v.2 + u.count) = decide (0 < v.2) := by
    have : (0 < v.2 + u.count) ↔ 0 < v.2 := by omega
    simp [this]
  have hmem : dictMem m u.key = true := by simp [dictMem, hv]
  refine ⟨?_, ?_, ?_, ?_⟩
  · rw [happ]
    exact length_dictSet_of_mem _ hmem
  · rw [happ]
    exact countVal_dictSet_eq _ hv hiff
  · rw [happ]
    exact sumVal_dictSet_eq _ hv rfl
  · rw [happ]
    exact sumValP_dictSet_eq _ _ hv hiff rfl

theorem metrics_foldUps_eq (ups : List Up) :
    ∀ m, (∀ u ∈ ups, ∃ v, dictGet? m u.key = some v ∧ u.count ≤ v.2) →
      (foldUps m ups).length = m.length ∧
      countVal (fun v => decide (0 < v.2)) (foldUps m ups) =
        countVal (fun v => decide (0 < v.2)) m ∧
      sumVal (fun v => v.1) (foldUps m ups) = sumVal (fun v => v.1) m ∧
      sumValP (fun v => decide (0 < v.2)) (fun v => v.1) (foldUps m ups) =
        sumValP (fun v => decide (0 < v.2)) (fun v => v.1) m := by
  induction ups with
  | nil => intro m _; exact ⟨rfl, rfl, rfl, rfl⟩
  | cons u ups ih =>
    intro m h
    have hu := h u (by simp)
    obtain ⟨v, hv, hc⟩ := hu
    have hstep := metrics_applyUp_eq ⟨v, hv, hc⟩
    have happ : applyUp m u = dictSet m u.key (v.1, v.2 + u.count) := by
      rw [applyUp, hv]
    have hrest : ∀ u' ∈ ups, ∃ v', dictGet? (applyUp m u) u'.key = some v' ∧
        u'.count ≤ v'.2 := by
      intro u' hu'
      obtain ⟨v', hv', hc'⟩ := h u' (by simp [hu'])
      by_cases hk : u'.key = u.key
      · rw [hk] at hv'
        rw [hv] at hv'
        have hvv : v' = v := (Option.some.inj hv').symm
        subst hvv
        refine ⟨(v'.1, v'.2 + u.count), ?_, ?_⟩
        · rw [happ, hk]
          exact dictGet?_dictSet_self _ _ _
        · exact le_trans hc' (Nat.le_add_right _ _)
      · refine ⟨v', ?_, hc'⟩
        rw [happ, dictGet?_dictSet_ne _ _ _ _ hk]
        exact hv'
    obtain ⟨l1, c1, s1, p1⟩ := metrics_applyUp_eq ⟨v, hv, hc⟩
    obtain ⟨l2, c2, s2, p2⟩ := ih (applyUp m u) hrest
    have hfold : foldUps m (u :: ups) = foldUps (applyUp m u) ups := rfl
    rw [hfold]
    exact ⟨l2.trans l1, c2.trans c1, s2.trans s1, p2.trans p1⟩

end Rulf

theorem dictMem_dictSet {β : Type} {m : List (String × β)} {k0 k : String}
    {v : β} (h : dictMem (dictSet m k0 v) k = true) :
    k = k0 ∨ dictMem m k = true := by
  by_cases hk : k = k0
  · exact Or.inl hk
  · right
    rw [dictMem, dictGet?_dictSet_ne _ _ _ _ hk] at h
    exact h

namespace Base4

theorem mem_updates_of {root : String} {fs : String → List String}
    {funcs : List FuncRecord} {func : FuncRecord} {u : String × Nat}
    (hf : func ∈ funcs) (hu : u ∈ funcUps root fs func) :
    u ∈ updates root fs funcs := by
  unfold updates
  rw [List.mem_flatten]
  exact ⟨funcUps root fs func, List.mem_map_of_mem _ hf, hu⟩

theorem hasPos_updates {root : String} {fs : String → List String}
    {funcs : List FuncRecord} {k : String} :
    hasPos (updates root fs funcs) k = true ↔
      ∃ func ∈ funcs, ∃ fl, func.filenames.head? = some fl ∧
        pyIn root fl = true ∧
        ∃ r ∈ func.regions.takeWhile
            (fun r => decide (r.led ≤ parse_file (fs fl))),
          regionKey fl r = k ∧ 0 < r.count := by
  simp only [hasPos, List.any_eq_true, Bool.and_eq_true, decide_eq_true_eq]
  constructor
  · rintro ⟨u, hu, h1, h2⟩
    obtain ⟨func, hf, huf⟩ := mem_updates hu
    obtain ⟨fl, hfl, hr, r, hrm, rfl⟩ := mem_funcUps.mp huf
    exact ⟨func, hf, fl, hfl, hr, r, hrm, by simpa using h1, by simpa using h2⟩
  · rintro ⟨func, hf, fl, hfl, hr, r, hrm, hk, hc⟩
    refine ⟨(regionKey fl r, r.count), ?_, by simpa using hk, by simpa using hc⟩
    exact mem_updates_of hf (mem_funcUps.mpr ⟨fl, hfl, hr, r, hrm, rfl⟩)

theorem hasKey_updates {root : String} {fs : String → List String}
    {funcs : List FuncRecord} {k : String}
    (h : hasKey (updates root fs funcs) k = true) :
    ∃ func ∈ funcs, ∃ fl, func.filenames.head? = some fl ∧
      pyIn root fl = true ∧
      ∃ r ∈ func.regions, r.led ≤ parse_file (fs fl) ∧ regionKey fl r = k := by
  simp only [hasKey, List.any_eq_true, decide_eq_true_eq] at h
  obtain ⟨u, hu, h1⟩ := h
  obtain ⟨func, hf, huf⟩ := mem_updates hu
  obtain ⟨fl, hfl, hr, r, hrm, rfl⟩ := mem_funcUps.mp huf
  refine ⟨func, hf, fl, hfl, hr, r, ?_, ?_, by simpa using h1⟩
  · exact (List.takeWhile_sublist _).subset hrm
  · have := List.mem_takeWhile_imp hrm
    simpa using this

end Base4

namespace Rulf

theorem mem_funcUpsR {root : String} {fs : String → List String}
    {func : FuncRecord} {u : Up} (hu : u ∈ funcUps root fs func) :
    ∃ fl, func.filenames.head? = some fl ∧
      (pyIn root fl && pyIn "src/" fl) = true ∧
      ∃ r ∈ func.regions, r.led ≤ parse_file (fs fl) ∧
        u.key = regionKey fl r := by
  unfold funcUps at hu
  cases hh : func.filenames.head? with
  | none =>
    simp only [hh] at hu
    simp at hu
  | some fl =>
    simp only [hh] at hu
    by_cases hr : (pyIn root fl && pyIn "src/" fl) = true
    · rw [if_pos hr] at hu
      rw [List.mem_map] at hu
      obtain ⟨r, hrm, rfl⟩ := hu
      refine ⟨fl, rfl, hr, r, ?_, ?_, rfl⟩
      · exact List.mem_of_mem_filter hrm
      · have := List.of_mem_filter hrm
        simpa using this
    · rw [if_neg hr] at hu
      simp at hu

theorem mem_updatesR {root : String} {fs : String → List String}
    {funcs : List FuncRecord} {u : Up} (h : u ∈ updates root fs funcs) :
    ∃ func ∈ funcs, u ∈ funcUps root fs func := by
  unfold updates at h
  rw [List.mem_flatten] at h
  obtain ⟨l, hl, hu⟩ := h
  rw [List.mem_map] at hl
  obtain ⟨func, hf, rfl⟩ := hl
  exact ⟨func, hf, hu⟩

theorem dictMem_foldUpsR {ups : List Up} {m : List (String × Int × Nat)}
    {k : String} (h : dictMem (foldUps m ups) k = true) :
    dictMem m k = true ∨ ∃ u ∈ ups, u.key = k := by
  rw [dictMem, dictGet?_foldUpsR] at h
  cases hg : dictGet? m k with
  | some v => exact Or.inl (by simp [dictMem, hg])
  | none =>
    rw [hg] at h
    cases hfs : firstSpan ups k with
    | none => rw [hfs] at h; simp at h
    | some sp =>
      right
      unfold firstSpan at hfs
      cases hfind : ups.find? (fun u => decide (u.key = k)) with
      | none => rw [hfind] at hfs; simp at hfs
      | some u0 =>
        refine ⟨u0, List.mem_of_find?_eq_some hfind, ?_⟩
        have := List.find?_some hfind
        simpa using this

end Rulf

/-! ## The `cov_collect` region loop: break semantics and provenance -/

namespace CovCollect

theorem regionLoop_eq_takeWhile (limit : Nat) (fl : String) :
    ∀ (rs : List RawRegion) (acc : RegAcc),
      regionLoop limit fl acc rs =
        { regionLoop limit fl acc
            (rs.takeWhile (fun r => decide (r.led ≤ limit))) with
          is_valid :=
            acc.is_valid && rs.all (fun r => decide (r.led ≤ limit)) } := by
  intro rs
  induction rs with
  | nil =>
    intro acc
    simp only [regionLoop, List.takeWhile_nil, List.all_nil, Bool.and_true]
  | cons r rs ih =>
    intro acc
    by_cases hled : r.led > limit
    · have hf : decide (r.led ≤ limit) = false := by
        simp only [decide_eq_false_iff_not]
        omega
      simp only [regionLoop, if_pos hled, List.takeWhile_cons, hf,
        Bool.false_eq_true, if_false, List.all_cons, Bool.false_and,
        Bool.and_false]
    · have ht : decide (r.led ≤ limit) = true := by
        simp only [decide_eq_true_eq]
        omega
      simp only [regionLoop, if_neg hled, List.takeWhile_cons, ht, if_true,
        List.all_cons, Bool.true_and]
      by_cases hmem : dictMem acc.mamp_reg (regionKey fl r) = true
      · simp only [hmem, if_true]
        exact ih _
      · have hm0 : dictMem acc.mamp_reg (regionKey fl r) = false := by
          cases hb : dictMem acc.mamp_reg (regionKey fl r)
          · rfl
          · exact absurd hb hmem
        simp only [hm0, Bool.false_eq_true, if_false]
        by_cases hcnt : 0 < r.count
        · simp only [if_pos hcnt]
          exact ih _
        · simp only [if_neg hcnt]
          exact ih _

theorem regionLoop_mem (limit : Nat) (fl : String) :
    ∀ (rs : List RawRegion) (acc : RegAcc) (k : String),
      dictMem (regionLoop limit fl acc rs).mamp_reg k = true →
      dictMem acc.mamp_reg k = true ∨
        ∃ r ∈ rs, r.led ≤ limit ∧ regionKey fl r = k := by
  intro rs
  induction rs with
  | nil => intro acc k h; exact Or.inl h
  | cons r rs ih =>
    intro acc k h
    by_cases hled : r.led > limit
    · simp only [regionLoop, if_pos hled] at h
      exact Or.inl h
    · simp only [regionLoop, if_neg hled] at h
      by_cases hmem : dictMem acc.mamp_reg (regionKey fl r) = true
      · rw [if_pos hmem] at h
        rcases ih acc k h with h1 | ⟨r', hr', hle, hkey⟩
        · exact Or.inl h1
        · exact Or.inr ⟨r', by simp [hr'], hle, hkey⟩
      · rw [if_neg hmem] at h
        by_cases hcnt : 0 < r.count
        · rw [if_pos hcnt] at h
          rcases ih _ k h with h1 | ⟨r', hr', hle, hkey⟩
          · rcases dictMem_dictSet h1 with h2 | h2
            · exact Or.inr ⟨r, by simp, by omega, h2.symm⟩
            · exact Or.inl h2
          · exact Or.inr ⟨r', by simp [hr'], hle, hkey⟩
        · rw [if_neg hcnt] at h
          rcases ih _ k h with h1 | ⟨r', hr', hle, hkey⟩
          · rcases dictMem_dictSet h1 with h2 | h2
            · exact Or.inr ⟨r, by simp, by omega, h2.symm⟩
            · exact Or.inl h2
          · exact Or.inr ⟨r', by simp [hr'], hle, hkey⟩

theorem processFunc_okC {root : String} {fs : String → List String}
    {st st' : St} {func : FuncRecord}
    (hco : ∀ p ∈ st.map, p.2 = parse_file (fs p.1))
    (h : processFunc root fs st func = .ok st') :
    (∀ p ∈ st'.map, p.2 = parse_file (fs p.1)) ∧
    (∀ k, dictMem st'.mamp_reg k = true →
      dictMem st.mamp_reg k = true ∨
        ∃ fl, func.filenames.head? = some fl ∧ pyIn root fl = true ∧
          ∃ r ∈ func.regions, r.led ≤ parse_file (fs fl) ∧
            regionKey fl r = k) := by
  unfold processFunc at h
  by_cases hlen : func.filenames.length ≤ 1
  · rw [if_pos hlen] at h
    cases hfn : func.filenames with
    | nil =>
      rw [hfn] at h
      simp [pyIndex] at h
    | cons fl fls =>
      rw [hfn] at h
      simp only [pyIndex, List.get?_cons_zero] at h
      by_cases hroot : pyIn root fl = true
      · rw [if_pos hroot] at h
        simp only [Except.ok.injEq] at h
        subst h
        refine ⟨cacheStep_coherent (fun f => parse_file (fs f)) hco, ?_⟩
        intro k hm
        rcases regionLoop_mem _ fl func.regions _ k hm with h1 | ⟨r, hr, hle, hkey⟩
        · exact Or.inl h1
        · right
          refine ⟨fl, by simp [hfn], hroot, r, hr, ?_, hkey⟩
          rwa [cacheStep_snd hco] at hle
      · rw [if_neg hroot] at h
        simp only [Except.ok.injEq] at h
        subst h
        exact ⟨hco, fun k hm => Or.inl hm⟩
  · rw [if_neg hlen] at h
    simp at h

theorem runFuncs_mem {root : String} {fs : String → List String} :
    ∀ (funcs : List FuncRecord) (st st' : St) (k : String),
      (∀ p ∈ st.map, p.2 = parse_file (fs p.1)) →
      runFuncs root fs st funcs = .ok st' →
      dictMem st'.mamp_reg k = true →
      dictMem st.mamp_reg k = true ∨
        ∃ func ∈ funcs, ∃ fl, func.filenames.head? = some fl ∧
          pyIn root fl = true ∧
          ∃ r ∈ func.regions, r.led ≤ parse_file (fs fl) ∧
            regionKey fl r = k := by
  intro funcs
  induction funcs with
  | nil =>
    intro st st' k hco h hm
    simp only [runFuncs, Except.ok.injEq] at h
    subst h
    exact Or.inl hm
  | cons f fsn ih =>
    intro st st' k hco h hm
    simp only [runFuncs] at h
    cases hpf : processFunc root fs st f with
    | error e =>
      rw [hpf] at h
      simp at h
    | ok st1 =>
      rw [hpf] at h
      obtain ⟨hco1, hprov⟩ := processFunc_okC hco hpf
      rcases ih st1 st' k hco1 h hm with h1 | ⟨func, hf, rest⟩
      · rcases hprov k h1 with h2 | ⟨fl, hfl, hroot, r, hr, hle, hkey⟩
        · exact Or.inl h2
        · exact Or.inr ⟨f, by simp, fl, hfl, hroot, r, hr, hle, hkey⟩
      · exact Or.inr ⟨func, by simp [hf], rest⟩

end CovCollect

/-! ## Monotonicity of the `t.py` max-mode merge -/

theorem dictGetD_le_dictSet_zero {m : List (String × Nat)} {k : String}
    (hnone : dictGet? m k = none) (k' : String) :
    dictGetD m k' 0 ≤ dictGetD (dictSet m k 0) k' 0 := by
  by_cases hk : k' = k
  · subst hk
    simp [dictGetD, hnone, dictGet?_dictSet_self]
  · rw [dictGetD, dictGetD, dictGet?_dictSet_ne _ _ _ _ hk]

theorem dictGetD_le_dictSet_max {m : List (String × Nat)} {k : String}
    {c : Nat} (k' : String) :
    dictGetD m k' 0 ≤ dictGetD (dictSet m k (max c (dictGetD m k 0))) k' 0 := by
  by_cases hk : k' = k
  · subst hk
    simp only [dictGetD, dictGet?_dictSet_self, Option.getD_some]
    exact le_max_right _ _
  · rw [dictGetD, dictGetD, dictGet?_dictSet_ne _ _ _ _ hk]

namespace Tpy

theorem regionLoop_mono (limit : Nat) (fl : String) :
    ∀ (rs : List RawRegion) (m : List (String × Nat)),
      (∀ k, dictGetD m k 0 ≤ dictGetD (regionLoop limit fl m rs) k 0) ∧
      countVal (fun v => decide (0 < v)) m ≤
        countVal (fun v => decide (0 < v)) (regionLoop limit fl m rs) ∧
      m.length ≤ (regionLoop limit fl m rs).length := by
  intro rs
  induction rs with
  | nil =>
    intro m
    exact ⟨fun k => le_rfl, le_rfl, le_rfl⟩
  | cons r rs ih =>
    intro m
    by_cases hled : r.led > limit
    · simp only [regionLoop, if_pos hled]
      exact ⟨fun k => le_rfl, le_rfl, le_rfl⟩
    · simp only [regionLoop, if_neg hled]
      set k0 := regionKey fl r with hk0
      set m1 := if dictMem m k0 then m else dictSet m k0 0 with hm1
      set m2 := dictSet m1 k0 (max r.count (dictGetD m1 k0 0)) with hm2
      have step1 : (∀ k, dictGetD m k 0 ≤ dictGetD m1 k 0) ∧
          countVal (fun v => decide (0 < v)) m ≤
            countVal (fun v => decide (0 < v)) m1 ∧
          m.length ≤ m1.length := by
        rw [hm1]
        by_cases hmem : dictMem m k0 = true
        · simp [hmem]
        · have hm0 : dictMem m k0 = false := by
            cases hb : dictMem m k0
            · rfl
            · exact absurd hb hmem
          have hnone : dictGet? m k0 = none := by
            cases hg : dictGet? m k0
            · rfl
            · rw [dictMem, hg] at hm0
              simp at hm0
          simp only [hm0, Bool.false_eq_true, if_false]
          refine ⟨fun k => dictGetD_le_dictSet_zero hnone k, ?_, ?_⟩
          · exact countVal_dictSet_ge _ m k0 0
              (fun v0 hg _ => by rw [hnone] at hg; exact Option.noConfusion hg)
          · exact length_le_dictSet _ _ _
      have step2 : (∀ k, dictGetD m1 k 0 ≤ dictGetD m2 k 0) ∧
          countVal (fun v => decide (0 < v)) m1 ≤
            countVal (fun v => decide (0 < v)) m2 ∧
          m1.length ≤ m2.length := by
        rw [hm2]
        refine ⟨fun k => dictGetD_le_dictSet_max k, ?_, ?_⟩
        · refine countVal_dictSet_ge _ m1 k0 _ (fun v0 hg hp => ?_)
          simp only [decide_eq_true_eq] at hp ⊢
          have hv : dictGetD m1 k0 0 = v0 := by simp [dictGetD, hg]
          rw [hv]
          exact lt_of_lt_of_le hp (le_max_right _ _)
        · exact length_le_dictSet _ _ _
      obtain ⟨g1, c1, l1⟩ := step1
      obtain ⟨g2, c2, l2⟩ := step2
      obtain ⟨g3, c3, l3⟩ := ih m2
      exact ⟨fun k => le_trans (le_trans (g1 k) (g2 k)) (g3 k),
        le_trans (le_trans c1 c2) c3, le_trans (le_trans l1 l2) l3⟩

theorem processFunc_mono {root : String} {fs : String → List String}
    {st st' : St} {func : FuncRecord}
    (h : processFunc root fs st func = .ok st') :
    (∀ k, dictGetD st.mamp_reg k 0 ≤ dictGetD st'.mamp_reg k 0) ∧
    countVal (fun v => decide (0 < v)) st.mamp_reg ≤
      countVal (fun v => decide (0 < v)) st'.mamp_reg ∧
    st.mamp_reg.length ≤ st'.mamp_reg.length := by
  unfold processFunc at h
  by_cases hlen : func.filenames.length ≤ 1
  · rw [if_pos hlen] at h
    cases hfn : func.filenames with
    | nil =>
      rw [hfn] at h
      simp [pyIndex] at h
    | cons fl fls =>
      rw [hfn] at h
      simp only [pyIndex, List.get?_cons_zero] at h
      by_cases hroot : (pyIn root fl && !(fl.endsWith "rusty_monitor.rs")) = true
      · rw [if_pos hroot] at h
        cases hmp : (if dictMem st.map fl then Except.ok st.map
            else (parse_file (fs fl)).map (fun b => dictSet st.map fl b)) with
        | error e =>
          rw [hmp] at h
          simp at h
        | ok map' =>
          rw [hmp] at h
          simp only [Except.ok.injEq] at h
          subst h
          exact regionLoop_mono _ fl func.regions st.mamp_reg
      · rw [if_neg hroot] at h
        simp only [Except.ok.injEq] at h
        subst h
        exact ⟨fun k => le_rfl, le_rfl, le_rfl⟩
  · rw [if_neg hlen] at h
    simp at h

theorem runFuncs_mono {root : String} {fs : String → List String} :
    ∀ (funcs : List FuncRecord) (st st' : St),
      runFuncs root fs st funcs = .ok st' →
      (∀ k, dictGetD st.mamp_reg k 0 ≤ dictGetD st'.mamp_reg k 0) ∧
      countVal (fun v => decide (0 < v)) st.mamp_reg ≤
        countVal (fun v => decide (0 < v)) st'.mamp_reg ∧
      st.mamp_reg.length ≤ st'.mamp_reg.length := by
  intro funcs
  induction funcs with
  | nil =>
    intro st st' h
    simp only [runFuncs, Except.ok.injEq] at h
    subst h
    exact ⟨fun k => le_rfl, le_rfl, le_rfl⟩
  | cons f fsn ih =>
    intro st st' h
    simp only [runFuncs] at h
    cases hpf : processFunc root fs st f with
    | error e =>
      rw [hpf] at h
      simp at h
    | ok st1 =>
      rw [hpf] at h
      obtain ⟨g1, c1, l1⟩ := processFunc_mono hpf
      obtain ⟨g2, c2, l2⟩ := ih st1 st' h
      exact ⟨fun k => le_trans (g1 k) (g2 k), le_trans c1 c2,
        le_trans l1 l2⟩

end Tpy

/-! ## Claims C2 - C7 -/

/-- C2 (corrected).  The claim states that if any region of a function
record exceeds its file's boundary then NONE of the function's regions
(including in-boundary ones listed earlier in the record) is emitted.  The
code does not implement that policy: in `cov_collect.py` the region loop
emits each in-boundary region immediately and, on the first offending
region, merely stops and clears the per-function validity flag — regions
already emitted stay in the store, so the processed set is the longest
boundary-respecting prefix of the record; in `rulf`'s `cov_select` the
offending region is skipped with `continue`, so both earlier AND later
in-boundary regions are kept (the boundary-respecting subsequence). -/
theorem claim_C2 (limit : Nat) (fl : String) (rs : List RawRegion)
    (acc : CovCollect.RegAcc) (m : List (String × Int × Nat)) :
    CovCollect.regionLoop limit fl acc rs =
      { CovCollect.regionLoop limit fl acc
          (rs.takeWhile (fun r => decide (r.led ≤ limit))) with
        is_valid :=
          acc.is_valid && rs.all (fun r => decide (r.led ≤ limit)) } ∧
    Rulf.regionLoop limit fl m rs =
      Rulf.regionLoop limit fl m
        (rs.filter (fun r => decide (r.led ≤ limit))) := by
  refine ⟨CovCollect.regionLoop_eq_takeWhile limit fl rs acc, ?_⟩
  have hff : (rs.filter (fun r => decide (r.led ≤ limit))).filter
      (fun r => decide (r.led ≤ limit)) =
      rs.filter (fun r => decide (r.led ≤ limit)) :=
    List.filter_eq_self.mpr (fun a ha => (List.mem_filter.mp ha).2)
  rw [Rulf.regionLoop_eq_foldUpsR, Rulf.regionLoop_eq_foldUpsR, hff]

/-- C2 counterexample.  `exFuncMixed` reports the in-boundary region
`exRegC` (end line 2 ≤ boundary 3) before the out-of-boundary region
`exRegOut` (end line 9 > 3).  The claim predicts that no key of this
function enters the store; after `cov_collect.py`'s pass the key of
`exRegC` is present.  `exFuncMixedRev` lists the offending region FIRST and
`rulf`'s `cov_select` still keeps the later in-boundary region. -/
theorem claim_C2_counterexample :
    (CovCollect.collect_result exRoot exFs [exFuncMixed]).map
        (fun st => dictMem st.mamp_reg (regionKey exFile exRegC)) =
      .ok true ∧
    CovCollect.parse_file (exFs exFile) < exRegOut.led ∧
    (Rulf.runFuncs exRoot exFs { map := [], mamp_reg := [] }
        [exFuncMixedRev]).map
        (fun st => dictMem st.mamp_reg (regionKey exFile exRegC)) =
      .ok true ∧
    Rulf.parse_file (exFs exFile) < exRegOut.led := by
  exact ⟨rfl, by decide, rfl, by decide⟩

/-- C3 (corrected).  The claim asserts a per-pass "already contributed"
guard keeps a key's accumulated count at its single-export value (3, not 6)
when the identical raw export is merged a second time.  No such guard
exists: `rulf`'s count mode adds the export's counts again, so the
accumulated count doubles (see the counterexample and the last conjunct).
The metrics half of the claim does hold: re-merging the identical export
leaves every derived metric unchanged — `base_4`'s boolean store is
literally idempotent (the second pass returns the same store), and in
`rulf`'s count mode the key set, the stored spans and each entry's
zero/positive status are preserved, so `reg_total`, `reg_count`,
`line_total` and `line_count` are unchanged. -/
theorem claim_C3 {root : String} {fs : String → List String}
    {funcs : List FuncRecord} {m0 m1 m2 : List (String × Nat)}
    {map0 : List (String × Nat)} {S : List (String × Int × Nat)}
    {st1 st2 : Rulf.St}
    (h1 : Base4.collect_result root fs m0 funcs = .ok m1)
    (h2 : Base4.collect_result root fs m1 funcs = .ok m2)
    (hco : ∀ p ∈ map0, p.2 = Rulf.parse_file (fs p.1))
    (hr1 : Rulf.runFuncs root fs { map := map0, mamp_reg := S } funcs = .ok st1)
    (hr2 : Rulf.runFuncs root fs st1 funcs = .ok st2) :
    m2 = m1 ∧
    Rulf.reg_total st2.mamp_reg = Rulf.reg_total st1.mamp_reg ∧
    Rulf.reg_count st2.mamp_reg = Rulf.reg_count st1.mamp_reg ∧
    Rulf.line_total st2.mamp_reg = Rulf.line_total st1.mamp_reg ∧
    Rulf.line_count st2.mamp_reg = Rulf.line_count st1.mamp_reg ∧
    (∀ k a b, dictGet? st1.mamp_reg k = some (a, b) →
      dictGet? st2.mamp_reg k =
        some (a, b + Rulf.sumCounts (Rulf.updates root fs funcs) k)) := by
  have hm1 := Base4.collect_result_ok h1
  have hm2 := Base4.collect_result_ok h2
  obtain ⟨hs1, hco1⟩ := Rulf.runFuncs_okR funcs _ st1 hco hr1
  obtain ⟨hs2, -⟩ := Rulf.runFuncs_okR funcs st1 st2 hco1 hr2
  have hsup : ∀ u ∈ Rulf.updates root fs funcs,
      ∃ v, dictGet? st1.mamp_reg u.key = some v ∧ u.count ≤ v.2 := by
    rw [hs1]
    exact Rulf.foldUps_supplies _ S
  obtain ⟨hl, hc, hsv, hsp⟩ :=
    Rulf.metrics_foldUps_eq (Rulf.updates root fs funcs) st1.mamp_reg hsup
  refine ⟨?_, ?_, ?_, ?_, ?_, ?_⟩
  · rw [hm2, hm1, Base4.foldUps_idem, ← hm1]
  · show st2.mamp_reg.length = st1.mamp_reg.length
    rw [hs2]
    exact hl
  · rw [hs2] at *
    exact hc
  · rw [hs2] at *
    exact hsv
  · rw [hs2] at *
    exact hsp
  · intro k a b hget
    rw [hs2, Rulf.dictGet?_foldUpsR, hget]

/-- C3 witness: the amended claim at a concrete single-region export with
hit count 3 — the second `base_4` pass returns the same store, and the
`rulf` metrics of the twice-merged store equal those of the once-merged
store (with the underlying count having doubled to 6). -/
theorem claim_C3_witness :
    ([(regionKey exFile exRegC, 1)] : List (String × Nat)) =
      [(regionKey exFile exRegC, 1)] ∧
    Rulf.reg_count [(regionKey exFile exRegC, ((2 : Int), 6))] =
      Rulf.reg_count [(regionKey exFile exRegC, ((2 : Int), 3))] := by
  have h := claim_C3
    (show Base4.collect_result exRoot exFs [] [exFuncC] =
      .ok [(regionKey exFile exRegC, 1)] from rfl)
    (show Base4.collect_result exRoot exFs [(regionKey exFile exRegC, 1)]
      [exFuncC] = .ok [(regionKey exFile exRegC, 1)] from rfl)
    (show ∀ p ∈ ([] : List (String × Nat)),
      p.2 = Rulf.parse_file (exFs p.1) by simp)
    (show Rulf.runFuncs exRoot exFs { map := [], mamp_reg := [] } [exFuncC] =
      .ok { map := [(exFile, 3)],
            mamp_reg := [(regionKey exFile exRegC, ((2 : Int), 3))] } from rfl)
    (show Rulf.runFuncs exRoot exFs
      { map := [(exFile, 3)],
        mamp_reg := [(regionKey exFile exRegC, ((2 : Int), 3))] } [exFuncC] =
      .ok { map := [(exFile, 3)],
            mamp_reg := [(regionKey exFile exRegC, ((2 : Int), 6))] } from rfl)
  exact ⟨h.1, h.2.2.1⟩

/-- C3 counterexample: merging the single-region export with `hitCount = 3`
a second time leaves the accumulated count at 6, not 3 — there is no
"already contributed" guard in `rulf`'s count mode. -/
theorem claim_C3_counterexample :
    Rulf.runFuncs exRoot exFs { map := [], mamp_reg := [] } [exFuncC] =
      .ok { map := [(exFile, 3)],
            mamp_reg := [(regionKey exFile exRegC, ((2 : Int), 3))] } ∧
    Rulf.runFuncs exRoot exFs
      { map := [(exFile, 3)],
        mamp_reg := [(regionKey exFile exRegC, ((2 : Int), 3))] } [exFuncC] =
      .ok { map := [(exFile, 3)],
            mamp_reg := [(regionKey exFile exRegC, ((2 : Int), 6))] } ∧
    (6 : Nat) ≠ 3 := by
  exact ⟨rfl, rfl, by decide⟩

/-- C4 (confirmed).  Merge monotonicity for the two cited variants: in
`llm_4_base_cov/main.py` (boolean mode) an entry's covered state
(value ≠ 0) never reverts to uncovered, and the covered tally and the
store size never decrease; in `t.py` (max mode) every key's accumulated
count never decreases, and the covered tally and store size never
decrease. -/
theorem claim_C4 {root : String} {fs : String → List String}
    {funcs : List FuncRecord} {m0 m1 : List (String × Nat)}
    {stT stT' : Tpy.St}
    (h4 : Base4.collect_result root fs m0 funcs = .ok m1)
    (hT : Tpy.runFuncs root fs stT funcs = .ok stT') :
    ((∀ k, dictGetD m0 k 0 ≠ 0 → dictGetD m1 k 0 ≠ 0) ∧
      Base4.reg_count m0 ≤ Base4.reg_count m1 ∧
      Base4.reg_total m0 ≤ Base4.reg_total m1) ∧
    ((∀ k, dictGetD stT.mamp_reg k 0 ≤ dictGetD stT'.mamp_reg k 0) ∧
      Tpy.reg_count stT.mamp_reg ≤ Tpy.reg_count stT'.mamp_reg ∧
      Tpy.reg_total stT.mamp_reg ≤ Tpy.reg_total stT'.mamp_reg) := by
  have hm1 := Base4.collect_result_ok h4
  refine ⟨⟨?_, ?_, ?_⟩, ?_⟩
  · intro k h
    rw [hm1]
    exact Base4.foldUps_getD_ne _ m0 k h
  · rw [hm1]
    exact Base4.foldUps_countVal_le _ m0
  · rw [hm1]
    exact Base4.foldUps_length_le _ m0
  · exact Tpy.runFuncs_mono funcs stT stT' hT

/-- C4 witness: monotonicity applied at a concrete export merged into the
empty store under both variants. -/
theorem claim_C4_witness :
    Base4.reg_total ([] : List (String × Nat)) ≤
      Base4.reg_total [(regionKey exFile exRegC, 1)] ∧
    Tpy.reg_total ([] : List (String × Nat)) ≤
      Tpy.reg_total [(regionKey exFile exRegC, 3)] := by
  have h := claim_C4
    (show Base4.collect_result exRoot exFs [] [exFuncC] =
      .ok [(regionKey exFile exRegC, 1)] from rfl)
    (show Tpy.runFuncs exRoot exFs { map := [], mamp_reg := [] } [exFuncC] =
      .ok { map := [(exFile, 3)],
            mamp_reg := [(regionKey exFile exRegC, 3)] } from rfl)
  exact ⟨h.1.2.2, h.2.2.2⟩

/-- C5 (corrected).  In `llm_4_base_cov/main.py` boolean-mode merge IS an
OR over the processed occurrences: after a pass, a key's entry is nonzero
iff it was nonzero before the pass or some processed in-boundary region of
a root-accepted function record reported the key with a positive hit count
— in particular a key first observed with count 0 becomes covered when a
later pass reports a positive count for it.  In `rug-gpt/cov_collect.py`,
however, the first occurrence of a key wins: once the key is present in
the store the region loop skips every later occurrence with `continue`, so
a positive count arriving after a zero-count first observation is ignored
(second conjunct; the counterexample shows the resulting covered tally). -/
theorem claim_C5 {root : String} {fs : String → List String}
    {funcs : List FuncRecord} {m0 m1 : List (String × Nat)}
    (h : Base4.collect_result root fs m0 funcs = .ok m1) :
    (∀ k, dictGetD m1 k 0 ≠ 0 ↔
      (dictGetD m0 k 0 ≠ 0 ∨
        ∃ func ∈ funcs, ∃ fl, func.filenames.head? = some fl ∧
          pyIn root fl = true ∧
          ∃ r ∈ func.regions.takeWhile
              (fun r => decide (r.led ≤ Base4.parse_file (fs fl))),
            regionKey fl r = k ∧ 0 < r.count)) ∧
    (∀ (limit : Nat) (fl : String) (acc : CovCollect.RegAcc)
        (r : RawRegion) (rs : List RawRegion),
      dictMem acc.mamp_reg (regionKey fl r) = true → r.led ≤ limit →
      CovCollect.regionLoop limit fl acc (r :: rs) =
        CovCollect.regionLoop limit fl acc rs) := by
  constructor
  · intro k
    have hiff := Base4.foldUps_getD_ne_iff (Base4.updates root fs funcs) m0 k
    rw [Base4.collect_result_ok h]
    constructor
    · intro hne
      rcases hiff.mp hne with h1 | h1
      · exact Or.inr (Base4.hasPos_updates.mp h1)
      · exact Or.inl h1
    · intro h1
      rcases h1 with h1 | h1
      · exact hiff.mpr (Or.inr h1)
      · exact hiff.mpr (Or.inl (Base4.hasPos_updates.mpr h1))
  · intro limit fl acc r rs hmem hle
    have hled : ¬ r.led > limit := by omega
    simp only [CovCollect.regionLoop, if_neg hled, hmem, if_true]

/-- C5 witness: the `base_4` OR characterization applied at a concrete
single-function export with hit count 5 merged into the empty store. -/
theorem claim_C5_witness :
    dictGetD [(regionKey exFile exRegB, 1)] (regionKey exFile exRegB) 0 ≠ 0 := by
  have h := (claim_C5 (show Base4.collect_result exRoot exFs []
      [exFuncB] = .ok [(regionKey exFile exRegB, 1)] from rfl)).1
  exact (h (regionKey exFile exRegB)).mpr
    (Or.inr ⟨exFuncB, by simp, exFile, rfl, by decide, exRegB, by decide,
      rfl, by decide⟩)

/-- C5 counterexample: an export reports the same region first with
`hitCount = 0` (`exFuncA`) and then with `hitCount = 5` (`exFuncB`).  The
claim says the merged entry becomes covered as soon as any execution
reports a positive count; in `cov_collect.py` the covered tally
`reg_count` stays 0 because the positive later occurrence of the
already-seen key is skipped. -/
theorem claim_C5_counterexample :
    (CovCollect.collect_result exRoot exFs [exFuncA, exFuncB]).map
        (fun st => st.reg_count) = .ok 0 ∧
    (CovCollect.collect_result exRoot exFs [exFuncA, exFuncB]).map
        (fun st => dictMem st.mamp_reg (regionKey exFile exRegB)) =
      .ok true ∧
    exRegA.count = 0 ∧ exRegB.count = 5 ∧
    regionKey exFile exRegB = regionKey exFile exRegA := by
  exact ⟨rfl, rfl, rfl, rfl, rfl⟩

/-- C6 (confirmed).  Boundary filtering invariant, via key injectivity:
for any function record whose region `r` ends past its file's boundary,
the key of `r` is never inserted by the pass — in `base_4`, if that key
was not already in the rehydrated store it is absent afterwards; in
`cov_collect.py` (whose store starts empty each invocation) it is absent
from the final store.  Every inserted key originates from an in-boundary
region of a root-accepted file, and by injectivity of the key map an equal
key forces the same file (hence the same boundary) and the same end line,
contradicting the violation. -/
theorem claim_C6 {root : String} {fs : String → List String}
    {funcs : List FuncRecord} {m0 m1 : List (String × Nat)}
    {func : FuncRecord} {fl : String} {r : RawRegion}
    (h4 : Base4.collect_result root fs m0 funcs = .ok m1)
    (hf : func ∈ funcs) (hfl : func.filenames.head? = some fl)
    (hr : r ∈ func.regions) (hb : Base4.parse_file (fs fl) < r.led)
    (hfresh : dictMem m0 (regionKey fl r) = false) :
    dictMem m1 (regionKey fl r) = false ∧
    (∀ (funcsC : List FuncRecord) (stC : CovCollect.St)
        (funcC : FuncRecord) (flC : String) (rC : RawRegion),
      CovCollect.collect_result root fs funcsC = .ok stC →
      funcC ∈ funcsC → funcC.filenames.head? = some flC →
      rC ∈ funcC.regions → CovCollect.parse_file (fs flC) < rC.led →
      dictMem stC.mamp_reg (regionKey flC rC) = false) := by
  constructor
  · cases hmem : dictMem m1 (regionKey fl r) with
    | false => rfl
    | true =>
      exfalso
      rw [Base4.collect_result_ok h4] at hmem
      rcases Base4.dictMem_foldUps hmem with h1 | h1
      · rw [h1] at hfresh
        exact Bool.noConfusion hfresh
      · obtain ⟨func', hf', fl', hfl', hroot', r', hr', hle', hkey'⟩ :=
          Base4.hasKey_updates h1
        obtain ⟨hfleq, -, -, hled, -⟩ := regionKey_inj hkey'
        rw [hfleq] at hle'
        omega
  · intro funcsC stC funcC flC rC hC hfC hflC hrC hbC
    cases hmem : dictMem stC.mamp_reg (regionKey flC rC) with
    | false => rfl
    | true =>
      exfalso
      have hrun : CovCollect.runFuncs root fs
          ⟨[], [], 0, 0, 0, 0, 0, 0⟩ funcsC = .ok stC := hC
      rcases CovCollect.runFuncs_mem funcsC _ stC _ (by simp) hrun hmem with
        h1 | ⟨func', hf', fl', hfl', hroot', r', hr', hle', hkey'⟩
      · simp [dictMem, dictGet?] at h1
      · obtain ⟨hfleq, -, -, hled, -⟩ := regionKey_inj hkey'
        rw [hfleq] at hle'
        omega

/-- C6 witness: `exFuncMixed`'s out-of-boundary region `exRegOut` (end
line 9 > boundary 3) gets no store entry under either variant even though
the record's in-boundary region was emitted. -/
theorem claim_C6_witness :
    dictMem [(regionKey exFile exRegC, 1)] (regionKey exFile exRegOut) =
      false ∧
    dictMem [(regionKey exFile exRegC, 1)] (regionKey exFile exRegOut) =
      false := by
  have h := claim_C6
    (show Base4.collect_result exRoot exFs [] [exFuncMixed] =
      .ok [(regionKey exFile exRegC, 1)] from rfl)
    (show exFuncMixed ∈ [exFuncMixed] by simp)
    (show exFuncMixed.filenames.head? = some exFile from rfl)
    (show exRegOut ∈ exFuncMixed.regions by decide)
    (show Base4.parse_file (exFs exFile) < exRegOut.led by decide)
    (show dictMem ([] : List (String × Nat)) (regionKey exFile exRegOut) =
      false from rfl)
  refine ⟨h.1, ?_⟩
  exact h.2 [exFuncMixed]
    { map := [(exFile, 3)], mamp_reg := [(regionKey exFile exRegC, 1)],
      reg_total := 1, reg_count := 1, line_total := 2, line_count := 2,
      func_total := 0, func_count := 0 }
    exFuncMixed exFile exRegOut rfl (by simp) rfl (by decide) (by decide)

/-- C7 (corrected).  Root filtering in the code is a substring test, not a
path-prefix test: a function is accepted iff `os.getcwd() in filename`
(Python substring containment — `cov_collect.py`), with the additional
requirement `'src/' in filename` in `rulf`.  A file whose path does not
contain the root as a substring therefore never contributes a key (proved
here via key injectivity), but a dependency file that contains the root as
a non-prefix substring IS accepted and its regions DO enter the store —
see the counterexample. -/
theorem claim_C7 {root : String} {fs : String → List String}
    {funcsC : List FuncRecord} {stC : CovCollect.St} {fl : String}
    (hC : CovCollect.collect_result root fs funcsC = .ok stC)
    (hroot : pyIn root fl = false) :
    (∀ r, dictMem stC.mamp_reg (regionKey fl r) = false) ∧
    (∀ (funcsR : List FuncRecord) (map0 : List (String × Nat))
        (S : List (String × Int × Nat)) (stR : Rulf.St) (flR : String),
      (∀ p ∈ map0, p.2 = Rulf.parse_file (fs p.1)) →
      Rulf.runFuncs root fs { map := map0, mamp_reg := S } funcsR = .ok stR →
      (pyIn root flR && pyIn "src/" flR) = false →
      ∀ r, dictMem S (regionKey flR r) = false →
        dictMem stR.mamp_reg (regionKey flR r) = false) := by
  constructor
  · intro r
    cases hmem : dictMem stC.mamp_reg (regionKey fl r) with
    | false => rfl
    | true =>
      exfalso
      have hrun : CovCollect.runFuncs root fs
          ⟨[], [], 0, 0, 0, 0, 0, 0⟩ funcsC = .ok stC := hC
      rcases CovCollect.runFuncs_mem funcsC _ stC _ (by simp) hrun hmem with
        h1 | ⟨func', hf', fl', hfl', hroot', r', hr', hle', hkey'⟩
      · simp [dictMem, dictGet?] at h1
      · obtain ⟨hfleq, -⟩ := regionKey_inj hkey'
        rw [hfleq] at hroot'
        rw [hroot'] at hroot
        exact Bool.noConfusion hroot
  · intro funcsR map0 S stR flR hco hrun hrootR r hfresh
    cases hmem : dictMem stR.mamp_reg (regionKey flR r) with
    | false => rfl
    | true =>
      exfalso
      obtain ⟨hs, -⟩ := Rulf.runFuncs_okR funcsR _ stR hco hrun
      rw [hs] at hmem
      rcases Rulf.dictMem_foldUpsR hmem with h1 | ⟨u, hu, hukey⟩
      · rw [h1] at hfresh
        exact Bool.noConfusion hfresh
      · obtain ⟨func', hf', huf⟩ := Rulf.mem_updatesR hu
        obtain ⟨fl', hfl', hroot', r', hr', hle', hukey'⟩ :=
          Rulf.mem_funcUpsR huf
        rw [hukey'] at hukey
        obtain ⟨hfleq, -⟩ := regionKey_inj hukey
        rw [hfleq] at hroot'
        rw [hroot'] at hrootR
        exact Bool.noConfusion hrootR

/-- C7 witness: a file whose path does not contain the root as a substring
contributes no key under either cited variant. -/
theorem claim_C7_witness :
    dictMem [(regionKey exFileDep exRegC, 1)]
      (regionKey "/other/x.rs" exRegC) = false ∧
    dictMem [(regionKey exFile exRegC, ((2 : Int), 3))]
      (regionKey "/other/x.rs" exRegC) = false := by
  have h := claim_C7
    (show CovCollect.collect_result exRoot exFs [exFuncDep] =
      .ok { map := [(exFileDep, 3)],
            mamp_reg := [(regionKey exFileDep exRegC, 1)],
            reg_total := 1, reg_count := 1, line_total := 2, line_count := 2,
            func_total := 1, func_count := 1 } from rfl)
    (show pyIn exRoot "/other/x.rs" = false by decide)
  refine ⟨h.1 exRegC, ?_⟩
  exact h.2 [exFuncC] [] []
    { map := [(exFile, 3)],
      mamp_reg := [(regionKey exFile exRegC, ((2 : Int), 3))] }
    "/other/x.rs" (by simp) rfl (by decide) exRegC rfl

/-- C7 counterexample: the claim as stated is false — `exFileDep`
(`/deps/w/src/lib.rs`) is NOT rooted under the project root `/w` (the root
is not a path prefix of it), yet because the root occurs as an inner
substring the function is accepted by `rulf`'s `cov_select` and its
region's key appears in the store. -/
theorem claim_C7_counterexample :
    exRoot.data.isPrefixOf exFileDep.data = false ∧
    pyIn exRoot exFileDep = true ∧
    Rulf.runFuncs exRoot exFs { map := [], mamp_reg := [] } [exFuncDep] =
      .ok { map := [(exFileDep, 3)],
            mamp_reg := [(regionKey exFileDep exRegC, ((2 : Int), 3))] } ∧
    dictMem [(regionKey exFileDep exRegC, ((2 : Int), 3))]
      (regionKey exFileDep exRegC) = true := by
  refine ⟨by decide, by decide, rfl, ?_⟩
  simp [dictMem, dictGet?]
